import Mathlib

/-
Verification development for the IntervalProd core of odl/space/domain.py:
an n-dimensional axis-aligned box given by per-axis lower bounds `begin` and
upper bounds `end`, with generalized Hausdorff measure, tolerance-based
equality and containment, distance to a point, collapse/squeeze/insert
transforms, and uniform grid sampling.

The numpy float64 scalars of the source are modelled by the type `F` below:
exact extended rationals with the IEEE-754 special values NaN, -inf and +inf.
Comparisons, equality, addition, subtraction, multiplication and division
follow the IEEE rules for special values exactly (NaN compares false with
everything, 0/0 = NaN, s/0 = +inf for s > 0, inf - inf = NaN, and so on);
rounding of finite arithmetic is not modelled, finite values are exact
rationals.  Signed zero is not distinguished; no operation modelled here
produces a negative zero from the inputs the claims quantify over.

Fallible source operations (the validating constructor and every method that
can raise) are modelled as functions into `Except Err _`; the constructors of
`Err` name the error classes of the spec's taxonomy together with the two
accidental error sites present in the source (numpy broadcast failure inside
`equals`, and the `point[0]` IndexError inside `contains`).
-/

/-- IEEE-754 double values, modelled as exact extended rationals. -/
inductive F where
  | nan : F
  | ninf : F
  | fin : ℚ → F
  | pinf : F
deriving DecidableEq, Repr

/-- IEEE comparison `x <= y` (false whenever an operand is NaN). -/
def F.le : F → F → Bool
  | .nan, _ => false
  | .ninf, .nan => false
  | .fin _, .nan => false
  | .pinf, .nan => false
  | .ninf, .ninf => true
  | .ninf, .fin _ => true
  | .ninf, .pinf => true
  | .fin _, .ninf => false
  | .pinf, .ninf => false
  | .fin a, .fin b => decide (a ≤ b)
  | .fin _, .pinf => true
  | .pinf, .fin _ => false
  | .pinf, .pinf => true

/-- IEEE comparison `x < y` (false whenever an operand is NaN). -/
def F.lt : F → F → Bool
  | .nan, _ => false
  | .ninf, .nan => false
  | .fin _, .nan => false
  | .pinf, .nan => false
  | .ninf, .ninf => false
  | .ninf, .fin _ => true
  | .ninf, .pinf => true
  | .fin _, .ninf => false
  | .pinf, .ninf => false
  | .fin a, .fin b => decide (a < b)
  | .fin _, .pinf => true
  | .pinf, .fin _ => false
  | .pinf, .pinf => false

/-- IEEE equality `x == y` (false whenever an operand is NaN). -/
def F.beq : F → F → Bool
  | .ninf, .ninf => true
  | .pinf, .pinf => true
  | .fin a, .fin b => decide (a = b)
  | _, _ => false

/-- numpy `isinf` (false on NaN and on finite values). -/
def F.isInf : F → Bool
  | .ninf => true
  | .pinf => true
  | _ => false

/-- IEEE negation. -/
def F.neg : F → F
  | .nan => .nan
  | .ninf => .pinf
  | .fin a => .fin (-a)
  | .pinf => .ninf

/-- IEEE addition (NaN absorbs; (+inf) + (-inf) = NaN). -/
def F.add : F → F → F
  | .nan, _ => .nan
  | .ninf, .nan => .nan
  | .fin _, .nan => .nan
  | .pinf, .nan => .nan
  | .pinf, .ninf => .nan
  | .ninf, .pinf => .nan
  | .pinf, .pinf => .pinf
  | .pinf, .fin _ => .pinf
  | .fin _, .pinf => .pinf
  | .ninf, .ninf => .ninf
  | .ninf, .fin _ => .ninf
  | .fin _, .ninf => .ninf
  | .fin a, .fin b => .fin (a + b)

/-- IEEE subtraction, as addition of the negation. -/
def F.sub (x y : F) : F := F.add x (F.neg y)

/-- IEEE multiplication (NaN absorbs; inf * 0 = NaN; signs as usual). -/
def F.mul : F → F → F
  | .nan, _ => .nan
  | .ninf, .nan => .nan
  | .fin _, .nan => .nan
  | .pinf, .nan => .nan
  | .pinf, .pinf => .pinf
  | .pinf, .ninf => .ninf
  | .ninf, .pinf => .ninf
  | .ninf, .ninf => .pinf
  | .pinf, .fin b => if b = 0 then .nan else if 0 < b then .pinf else .ninf
  | .fin a, .pinf => if a = 0 then .nan else if 0 < a then .pinf else .ninf
  | .ninf, .fin b => if b = 0 then .nan else if 0 < b then .ninf else .pinf
  | .fin a, .ninf => if a = 0 then .nan else if 0 < a then .ninf else .pinf
  | .fin a, .fin b => .fin (a * b)

/-- IEEE division (NaN absorbs; inf/inf = NaN; 0/0 = NaN; s/0 = ±inf by the
sign of s; x/inf = 0).  The model has no signed zero: a zero divisor counts
as +0. -/
def F.div : F → F → F
  | .nan, _ => .nan
  | .ninf, .nan => .nan
  | .fin _, .nan => .nan
  | .pinf, .nan => .nan
  | .pinf, .pinf => .nan
  | .pinf, .ninf => .nan
  | .ninf, .pinf => .nan
  | .ninf, .ninf => .nan
  | .pinf, .fin b => if 0 ≤ b then .pinf else .ninf
  | .ninf, .fin b => if 0 ≤ b then .ninf else .pinf
  | .fin _, .pinf => .fin 0
  | .fin _, .ninf => .fin 0
  | .fin a, .fin b =>
    if b = 0 then (if a = 0 then .nan else if 0 < a then .pinf else .ninf)
    else .fin (a / b)

/-- IEEE absolute value. -/
def F.abs : F → F
  | .nan => .nan
  | .ninf => .pinf
  | .fin a => .fin |a|
  | .pinf => .pinf

/-- `x ^ p` for a natural exponent, following IEEE `pow` (x^0 = 1 for every
x, NaN included). -/
def F.powNat : F → ℕ → F
  | _, 0 => .fin 1
  | .nan, _ + 1 => .nan
  | .pinf, _ + 1 => .pinf
  | .ninf, n + 1 => if (n + 1) % 2 = 0 then .pinf else .ninf
  | .fin a, n + 1 => .fin (a ^ (n + 1))

/-- IEEE-flavoured maximum: `if x < y then y else x` (NaN on the left
propagates, matching the fold used to model the sup-norm over lists whose
entries are never NaN). -/
def F.fmax (x y : F) : F := if F.lt x y then y else x

/-- Sum of a list of floats. -/
def fsum (l : List F) : F := l.foldr F.add (F.fin 0)

/-- Product of a list of floats (`np.prod`, empty product 1). -/
def fprod (l : List F) : F := l.foldr F.mul (F.fin 1)

/-- Maximum of a list of floats against base 0 (the lists this is applied to
have nonnegative non-NaN entries). -/
def fmaxList (l : List F) : F := l.foldr F.fmax (F.fin 0)

/-- Sup-norm of a vector: maximum of the absolute values
(`np.linalg.norm(v, ord=inf)`). -/
def supnorm (l : List F) : F := fmaxList (l.map F.abs)

/-- The p-th power of the p-norm of a vector: sum of `|x| ^ p`.  Two vectors
have the same p-norm if and only if these sums agree, so equalities of
`np.linalg.norm(v, ord=p)` are stated through `powsum` to stay inside exact
rational arithmetic. -/
def powsum (p : ℕ) (l : List F) : F := fsum (l.map fun x => F.powNat (F.abs x) p)

/-- Error outcomes of the fallible operations, named after the spec's error
taxonomy (§7) plus the two accidental error sites in the source. -/
inductive Err where
  | dimensionMismatch : Err
  | orderingViolation : Err
  | indexOutOfRange : Err
  | lengthMismatch : Err
  | valueOutOfBounds : Err
  | broadcastMismatch : Err
  | scalarIndexError : Err
  | unboundedDomain : Err
  | shapeMismatch : Err
  | nonPositiveCount : Err
  | degenerateOversample : Err
deriving DecidableEq, Repr

/-- The raw data of an `IntervalProd`: the two bound vectors.  The source
field `end` is a Lean keyword and is rendered as `endp`. -/
structure IntervalProd where
  begin : List F
  endp : List F
deriving DecidableEq, Repr

deriving instance DecidableEq for Except

/-- `dim`: the number of axes (`len(self._begin)`). -/
def IntervalProd.dim (bx : IntervalProd) : ℕ := bx.begin.length

/-- The validating constructor `IntervalProd.__init__`: checks equal lengths,
then `np.all(begin <= end)` (which is false as soon as any entry is NaN),
and only then produces the value. -/
def IntervalProd.make (b e : List F) : Except Err IntervalProd :=
  if b.length ≠ e.length then .error .dimensionMismatch
  else if (b.zip e).all (fun p => F.le p.1 p.2) then .ok ⟨b, e⟩
  else .error .orderingViolation

/-- The construction invariants I1 and I2: equal lengths and `begin[i] <=
end[i]` on every axis (which in particular rules out NaN entries). -/
def IntervalProd.valid (bx : IntervalProd) : Prop :=
  bx.begin.length = bx.endp.length ∧
    ∀ p ∈ bx.begin.zip bx.endp, F.le p.1 p.2 = true

instance (bx : IntervalProd) : Decidable bx.valid := by
  unfold IntervalProd.valid; infer_instance

/-- The per-axis (begin, end) pairs of the non-degenerate axes, in order:
the selection `begin[self._inondeg]`/`end[self._inondeg]` of the source,
where `self._inondeg = np.where(begin != end)[0]` uses IEEE inequality. -/
def IntervalProd.nondegPairs (bx : IntervalProd) : List (F × F) :=
  (bx.begin.zip bx.endp).filter fun p => !(F.beq p.1 p.2)

/-- `truedim`: the number of non-degenerate axes. -/
def IntervalProd.truedim (bx : IntervalProd) : ℕ := bx.nondegPairs.length

/-- The sizes `end[i] - begin[i]` of the non-degenerate axes: the selection
`(self._end - self._begin)[self._inondeg]` of the source. -/
def IntervalProd.sizeNondeg (bx : IntervalProd) : List F :=
  bx.nondegPairs.map fun p => F.sub p.2 p.1

/-- The `elif` chain of `measure` after the `truedim == 0` and `dim is None`
branches have been dispatched. -/
def IntervalProd.measureAt (bx : IntervalProd) (d : ℤ) : F :=
  if d < (bx.truedim : ℤ) then F.pinf
  else if (bx.truedim : ℤ) < d then F.fin 0
  else fprod bx.sizeNondeg

/-- `measure(dim=None)`: generalized Hausdorff measure.  `truedim == 0`
returns 0.0 first; an omitted `dim` recurses with `dim = truedim` (the
recursion re-tests `truedim == 0`, which is false on that path, so it is
inlined as a direct call to the `elif` chain). -/
def IntervalProd.measure (bx : IntervalProd) (dim? : Option ℤ) : F :=
  if bx.truedim = 0 then F.fin 0
  else
    match dim? with
    | none => bx.measureAt (bx.truedim : ℤ)
    | some d => bx.measureAt d

/-- `volume = measure(dim=self.dim)`. -/
def IntervalProd.volume (bx : IntervalProd) : F := bx.measure (some (bx.dim : ℤ))

/-- `midpoint`: `(end + begin) / 2` with degenerate axes overwritten by
`begin` (written per axis; the source's vectorized overwrite
`midp[self._ideg] = begin[self._ideg]` selects exactly the axes where
`begin == end`). -/
def IntervalProd.midpoint (bx : IntervalProd) : List F :=
  (bx.begin.zip bx.endp).map fun p =>
    if F.beq p.1 p.2 then p.1 else F.div (F.add p.2 p.1) (F.fin 2)

/-- `np.isclose(x, y, atol=tol, rtol=0)` on scalars: `|x - y| <= tol` for
finite operands, true for two infinities of the same sign, false whenever an
operand is NaN. -/
def fclose (x y : F) (atol : ℚ) : Bool :=
  match x, y with
  | .fin a, .fin b => decide (|a - b| ≤ atol)
  | .pinf, .pinf => true
  | .ninf, .ninf => true
  | _, _ => false

/-- `np.allclose(a, b, atol=tol, rtol=0)` on 1-d arrays, including numpy
broadcasting: equal lengths compare pointwise; a length-1 operand is
broadcast against the other; any other length combination raises. -/
def allclose (a b : List F) (atol : ℚ) : Except Err Bool :=
  if a.length = b.length then .ok ((a.zip b).all fun p => fclose p.1 p.2 atol)
  else
    match a, b with
    | [x], bs => .ok (bs.all fun y => fclose x y atol)
    | xs, [y] => .ok (xs.all fun x => fclose x y atol)
    | _, _ => .error .broadcastMismatch

/-- The `other` argument of `equals`: either an interval-product value or
anything else (the `isinstance` guard of the source). -/
inductive SetArg where
  | box : IntervalProd → SetArg
  | notBox : SetArg

/-- `equals(other, tol)`: false for non-boxes, otherwise
`np.allclose(begin, other.begin) and np.allclose(end, other.end)` with the
Python short-circuit on the first conjunct. -/
def IntervalProd.equals (bx : IntervalProd) (other : SetArg) (tol : ℚ) :
    Except Err Bool :=
  match other with
  | .notBox => .ok false
  | .box o =>
    match allclose bx.begin o.begin tol with
    | .error e => .error e
    | .ok false => .ok false
    | .ok true => allclose bx.endp o.endp tol

/-- The entries `point[i_larger] - end[i_larger]` of `dist`, in axis order
(`i_larger = np.where(point > end)`). -/
def violA (pt e : List F) : List F :=
  ((pt.zip e).filter fun p => F.lt p.2 p.1).map fun p => F.sub p.1 p.2

/-- The entries `point[i_smaller] - begin[i_smaller]` of `dist`, in axis
order (`i_smaller = np.where(point < begin)`). -/
def violB (pt b : List F) : List F :=
  ((pt.zip b).filter fun p => F.lt p.1 p.2).map fun p => F.sub p.1 p.2

/-- `proj - border` of `dist`: the concatenation of the overshoots above
`end` followed by the overshoots below `begin`. -/
def IntervalProd.violations (bx : IntervalProd) (pt : List F) : List F :=
  violA pt bx.endp ++ violB pt bx.begin

/-- `dist(point, ord=inf)`: DimensionMismatch on a length mismatch, 0.0 when
there is no violating axis, otherwise the sup-norm of `proj - border`. -/
def IntervalProd.dist_sup (bx : IntervalProd) (pt : List F) : Except Err F :=
  if pt.length ≠ bx.dim then .error .dimensionMismatch
  else if (bx.violations pt).isEmpty then .ok (F.fin 0)
  else .ok (supnorm (bx.violations pt))

/-- The p-th power of `dist(point, ord=p)` for a finite order `p >= 1`:
DimensionMismatch on a length mismatch, 0.0 when there is no violating axis,
otherwise `sum |proj - border| ^ p` (the p-th power of
`np.linalg.norm(proj - border, ord=p)`). -/
def IntervalProd.dist_pow (p : ℕ) (bx : IntervalProd) (pt : List F) :
    Except Err F :=
  if pt.length ≠ bx.dim then .error .dimensionMismatch
  else if (bx.violations pt).isEmpty then .ok (F.fin 0)
  else .ok (powsum p (bx.violations pt))

/-- Modelled from the spec: the `RealNumbers().contains(point[0])` membership
predicate lives in odl/space/set.py, which is not part of the sources under
verification.  Per spec §4.4/§6 it is a scalar-type check that rejects
points "whose scalar type is not a real number"; every float64 scalar (NaN
and infinities included, they are real-typed values) satisfies it, so on the
scalar type `F` it is constantly true. -/
def realContains (_ : F) : Bool := true

/-- `contains(point, tol)`: false on a length mismatch; then the source
evaluates `point[0]` (an IndexError when the point is empty, which the
length guard lets through exactly on a 0-dimensional box) and queries the
real-membership predicate; finally true iff `dist(point, ord=inf) <= tol`. -/
def IntervalProd.contains (bx : IntervalProd) (pt : List F) (tol : ℚ) :
    Except Err Bool :=
  if pt.length ≠ bx.dim then .ok false
  else
    match pt with
    | [] => .error .scalarIndexError
    | p0 :: _ =>
      if realContains p0 then
        match bx.dist_sup pt with
        | .error e => .error e
        | .ok d => .ok (!(F.lt (F.fin tol) d))
      else .ok false

/-- The vectorized assignments `arr[indcs] = values` (later occurrences of a
duplicated index win, as in numpy fancy assignment). -/
def assign (l : List F) (ivs : List (ℤ × F)) : List F :=
  ivs.foldl (fun acc p => acc.set p.1.toNat p.2) l

/-- `collapse(indcs, values)`: length check, index-range check, the two
bounds checks (`values < begin[indcs]`, then `values > end[indcs]`), then a
fresh box through the validating constructor with `begin[indcs] = values`
and `end[indcs] = values`. -/
def IntervalProd.collapse (bx : IntervalProd) (indcs : List ℤ)
    (values : List F) : Except Err IntervalProd :=
  if indcs.length ≠ values.length then .error .lengthMismatch
  else if indcs.any (fun i => decide (i < 0) || decide ((bx.dim : ℤ) ≤ i)) then
    .error .indexOutOfRange
  else if (indcs.zip values).any
      (fun p => F.lt p.2 (bx.begin.getD p.1.toNat F.nan)) then
    .error .valueOutOfBounds
  else if (indcs.zip values).any
      (fun p => F.lt (bx.endp.getD p.1.toNat F.nan) p.2) then
    .error .valueOutOfBounds
  else IntervalProd.make (assign bx.begin (indcs.zip values))
    (assign bx.endp (indcs.zip values))

/-- `squeeze()`: keep exactly the non-degenerate axes, through the
validating constructor. -/
def IntervalProd.squeeze (bx : IntervalProd) : Except Err IntervalProd :=
  IntervalProd.make (bx.nondegPairs.map Prod.fst) (bx.nondegPairs.map Prod.snd)

/-- `insert(other, index)`: range check `0 <= index <= dim`, then splice
`other`'s axes before position `index`, through the validating
constructor. -/
def IntervalProd.insert (bx other : IntervalProd) (index : ℤ) :
    Except Err IntervalProd :=
  if decide (0 ≤ index) && decide (index ≤ (bx.dim : ℤ)) then
    IntervalProd.make
      (bx.begin.take index.toNat ++ other.begin ++ bx.begin.drop index.toNat)
      (bx.endp.take index.toNat ++ other.endp ++ bx.endp.drop index.toNat)
  else .error .indexOutOfRange

/-- The stride vector of `uniform_sampling`: `size / num_nodes` for midpoint
sampling, `size / (num_nodes - 1)` otherwise, in float division. -/
def IntervalProd.stride (bx : IntervalProd) (num_nodes : List ℤ)
    (as_midp : Bool) : List F :=
  ((bx.begin.zip bx.endp).zip num_nodes).map fun q =>
    F.div (F.sub q.1.2 q.1.1)
      (F.fin (if as_midp then (q.2 : ℚ) else (q.2 : ℚ) - 1))

/-- `uniform_sampling(num_nodes, as_midp)`: the four validation checks in
source order (infinite bounds, shape, positivity, degenerate oversampling —
the last one written per axis, equivalent to the source's selection
`num_nodes[self._ideg]` once the shape check has passed), then the
delegation payload `(num_nodes, center = midpoint, stride)` handed to the
external `RegularGrid` constructor. -/
def IntervalProd.uniform_sampling (bx : IntervalProd) (num_nodes : List ℤ)
    (as_midp : Bool) : Except Err (List ℤ × List F × List F) :=
  if bx.begin.any F.isInf || bx.endp.any F.isInf then .error .unboundedDomain
  else if num_nodes.length ≠ bx.dim then .error .shapeMismatch
  else if num_nodes.any (fun n => decide (n ≤ 0)) then .error .nonPositiveCount
  else if ((bx.begin.zip bx.endp).zip num_nodes).any
      (fun q => F.beq q.1.1 q.1.2 && decide (1 < q.2)) then
    .error .degenerateOversample
  else .ok (num_nodes, bx.midpoint, bx.stride num_nodes as_midp)

/-- Spec-side vocabulary: the non-degenerate axes described by the spec,
`begin[i] ≠ end[i]` with propositional inequality. -/
def IntervalProd.specNondeg (bx : IntervalProd) : List (F × F) :=
  (bx.begin.zip bx.endp).filter fun p => decide (p.1 ≠ p.2)

/-- Spec-side vocabulary: the count of non-degenerate axes. -/
def IntervalProd.specTruedim (bx : IntervalProd) : ℕ := bx.specNondeg.length

/-- Spec-side vocabulary: "the product of `size[i]` over all non-degenerate
axes i". -/
def IntervalProd.specProd (bx : IntervalProd) : F :=
  fprod (bx.specNondeg.map fun p => F.sub p.2 p.1)

/-- Spec-side vocabulary (claim C4): the full-length overshoot vector, one
entry per axis — `point[i] - end[i]` where `point[i] > end[i]`,
`point[i] - begin[i]` where `point[i] < begin[i]`, and 0 on axes within
bounds. -/
def IntervalProd.overshoot (bx : IntervalProd) (pt : List F) : List F :=
  (pt.zip (bx.begin.zip bx.endp)).map fun q =>
    if F.lt q.2.2 q.1 then F.sub q.1 q.2.2
    else if F.lt q.1 q.2.1 then F.sub q.1 q.2.1
    else F.fin 0

/-- Spec-side vocabulary: the point lies within `[begin[i], end[i]]` on
every axis. -/
def IntervalProd.inBounds (bx : IntervalProd) (pt : List F) : Prop :=
  ∀ q ∈ pt.zip (bx.begin.zip bx.endp),
    F.le q.2.1 q.1 = true ∧ F.le q.1 q.2.2 = true

instance (bx : IntervalProd) (pt : List F) : Decidable (bx.inBounds pt) := by
  unfold IntervalProd.inBounds; infer_instance

/-! Helper lemmas about the float model. -/

theorem F.ne_nan_left_of_le {x y : F} (h : F.le x y = true) : x ≠ F.nan := by
  cases x <;> cases y <;> simp_all [F.le]

theorem F.ne_nan_right_of_le {x y : F} (h : F.le x y = true) : y ≠ F.nan := by
  cases x <;> cases y <;> simp_all [F.le]

theorem F.le_refl_of_ne_nan {x : F} (h : x ≠ F.nan) : F.le x x = true := by
  cases x <;> simp_all [F.le]

theorem F.lt_irrefl (x : F) : F.lt x x = false := by
  cases x <;> simp [F.lt]

theorem F.not_lt_of_le {x y : F} (h : F.le x y = true) : F.lt y x = false := by
  cases x <;> cases y <;> simp_all [F.le, F.lt] <;> linarith

theorem F.not_lt_of_le_lt {a b c : F} (hab : F.le a b = true)
    (hbc : F.lt b c = true) : F.lt c a = false := by
  cases a <;> cases b <;> cases c <;> simp_all [F.le, F.lt] <;> linarith

theorem F.not_le_iff_lt {x y : F} (hx : x ≠ F.nan) (hy : y ≠ F.nan) :
    F.le x y = false ↔ F.lt y x = true := by
  cases x <;> cases y <;> simp_all [F.le, F.lt] <;> constructor <;> intro h <;> linarith

theorem F.beq_iff_eq {x y : F} (hx : x ≠ F.nan) : (F.beq x y = true ↔ x = y) := by
  cases x <;> cases y <;> simp_all [F.beq]

theorem fclose_refl {x : F} (h : x ≠ F.nan) {atol : ℚ} (ha : 0 ≤ atol) :
    fclose x x atol = true := by
  cases x <;> simp_all [fclose]

theorem F.zero_add (x : F) : F.add (F.fin 0) x = x := by
  cases x <;> simp [F.add]

theorem F.add_zero (x : F) : F.add x (F.fin 0) = x := by
  cases x <;> simp [F.add]

theorem F.add_comm (x y : F) : F.add x y = F.add y x := by
  cases x <;> cases y <;> simp [F.add] <;> ring

theorem F.add_assoc (x y z : F) :
    F.add (F.add x y) z = F.add x (F.add y z) := by
  cases x <;> cases y <;> cases z <;> simp [F.add] <;> ring

theorem F.add_left_comm (x y z : F) :
    F.add x (F.add y z) = F.add y (F.add x z) := by
  rw [← F.add_assoc, F.add_comm x y, F.add_assoc]

theorem fsum_cons (a : F) (l : List F) : fsum (a :: l) = F.add a (fsum l) := rfl

theorem foldr_add_eq (l : List F) (x : F) :
    l.foldr F.add x = F.add (fsum l) x := by
  induction l with
  | nil => simp [fsum, F.zero_add]
  | cons a l ih => simp [fsum, List.foldr_cons] at *; rw [ih, ← F.add_assoc]

theorem fsum_append (l1 l2 : List F) :
    fsum (l1 ++ l2) = F.add (fsum l1) (fsum l2) := by
  unfold fsum
  rw [List.foldr_append]
  exact foldr_add_eq l1 (fsum l2)

theorem powsum_nil (p : ℕ) : powsum p [] = F.fin 0 := rfl

theorem powsum_cons (p : ℕ) (a : F) (l : List F) :
    powsum p (a :: l) = F.add (F.powNat (F.abs a) p) (powsum p l) := rfl

theorem powsum_append (p : ℕ) (l1 l2 : List F) :
    powsum p (l1 ++ l2) = F.add (powsum p l1) (powsum p l2) := by
  unfold powsum
  rw [List.map_append, fsum_append]

theorem F.ne_nan_of_nng {x : F} (h : F.le (F.fin 0) x = true) : x ≠ F.nan :=
  F.ne_nan_right_of_le h

theorem F.fmax_fin (a b : ℚ) : F.fmax (F.fin a) (F.fin b) = F.fin (max a b) := by
  unfold F.fmax
  by_cases h : a < b
  · simp [F.lt, h, max_eq_right h.le]
  · simp [F.lt, h, max_eq_left (not_lt.mp h)]

theorem F.fmax_pinf_left (y : F) : F.fmax F.pinf y = F.pinf := by
  cases y <;> simp [F.fmax, F.lt]

theorem F.fmax_pinf_right {y : F} (hy : y ≠ F.nan) : F.fmax y F.pinf = F.pinf := by
  cases y <;> simp_all [F.fmax, F.lt]

theorem F.fmax_ninf_left {y : F} (hy : y ≠ F.nan) : F.fmax F.ninf y = y := by
  cases y <;> simp_all [F.fmax, F.lt]

theorem F.fmax_ninf_right (y : F) : F.fmax y F.ninf = y := by
  cases y <;> simp [F.fmax, F.lt]

theorem F.fmax_comm {x y : F} (hx : x ≠ F.nan) (hy : y ≠ F.nan) :
    F.fmax x y = F.fmax y x := by
  cases x <;> cases y <;>
    simp_all [F.fmax_fin, F.fmax_pinf_left, F.fmax_pinf_right, F.fmax_ninf_left,
      F.fmax_ninf_right, max_comm]

theorem F.fmax_ne_nan {x y : F} (hx : x ≠ F.nan) (hy : y ≠ F.nan) :
    F.fmax x y ≠ F.nan := by
  unfold F.fmax; split <;> assumption

theorem F.fmax_assoc {x y z : F} (hx : x ≠ F.nan) (hy : y ≠ F.nan)
    (hz : z ≠ F.nan) : F.fmax (F.fmax x y) z = F.fmax x (F.fmax y z) := by
  cases x <;> cases y <;> cases z <;>
    simp_all [F.fmax_fin, F.fmax_pinf_left, F.fmax_pinf_right, F.fmax_ninf_left,
      F.fmax_ninf_right, max_assoc]

theorem F.fmax_nng {x y : F} (hx : F.le (F.fin 0) x = true)
    (hy : F.le (F.fin 0) y = true) : F.le (F.fin 0) (F.fmax x y) = true := by
  unfold F.fmax; split <;> assumption

theorem F.fmax_zero_left {x : F} (hx : F.le (F.fin 0) x = true) :
    F.fmax (F.fin 0) x = x := by
  cases x <;> simp_all [F.le, F.fmax_fin, F.fmax_pinf_right, F.fmax_ninf_right]

theorem F.fmax_zero_right {x : F} (hx : F.le (F.fin 0) x = true) :
    F.fmax x (F.fin 0) = x := by
  cases x <;> simp_all [F.le, F.fmax_fin, F.fmax_pinf_left, F.fmax_ninf_left]

theorem fmaxList_cons (a : F) (l : List F) :
    fmaxList (a :: l) = F.fmax a (fmaxList l) := rfl

theorem fmaxList_nng {l : List F} (h : ∀ a ∈ l, F.le (F.fin 0) a = true) :
    F.le (F.fin 0) (fmaxList l) = true := by
  induction l with
  | nil => simp [fmaxList, F.le]
  | cons a l ih =>
    rw [fmaxList_cons]
    exact F.fmax_nng (h a (by simp)) (ih fun b hb => h b (by simp [hb]))

theorem foldr_fmax_eq {l : List F} {x : F}
    (hl : ∀ a ∈ l, F.le (F.fin 0) a = true) (hx : F.le (F.fin 0) x = true) :
    l.foldr F.fmax x = F.fmax (fmaxList l) x := by
  induction l with
  | nil => simp [fmaxList]; rw [F.fmax_zero_left hx]
  | cons a l ih =>
    have ha := hl a (by simp)
    have hrest : ∀ b ∈ l, F.le (F.fin 0) b = true := fun b hb => hl b (by simp [hb])
    simp only [List.foldr_cons, fmaxList_cons]
    rw [ih hrest,
      F.fmax_assoc (F.ne_nan_of_nng ha)
        (F.ne_nan_of_nng (fmaxList_nng hrest)) (F.ne_nan_of_nng hx)]

theorem fmaxList_append {l1 l2 : List F}
    (h1 : ∀ a ∈ l1, F.le (F.fin 0) a = true)
    (h2 : ∀ a ∈ l2, F.le (F.fin 0) a = true) :
    fmaxList (l1 ++ l2) = F.fmax (fmaxList l1) (fmaxList l2) := by
  unfold fmaxList
  rw [List.foldr_append]
  exact foldr_fmax_eq h1 (fmaxList_nng h2)

/-! Generic list helpers. -/

theorem mem_zip_self {α : Type} {l : List α} : ∀ p ∈ l.zip l, p.1 = p.2 := by
  induction l with
  | nil => simp
  | cons a l ih =>
    intro p hp
    simp only [List.zip_cons_cons, List.mem_cons] at hp
    rcases hp with h | h
    · simp [h]
    · exact ih p h

theorem mem_zip_left {α β : Type} {l1 : List α} {l2 : List β}
    (hlen : l1.length = l2.length) :
    ∀ x ∈ l1, ∃ y, (x, y) ∈ l1.zip l2 := by
  induction l1 generalizing l2 with
  | nil => simp
  | cons a l ih =>
    cases l2 with
    | nil => simp at hlen
    | cons b l2 =>
      intro x hx
      rw [List.mem_cons] at hx
      rcases hx with h | h
      · exact ⟨b, by simp [h]⟩
      · obtain ⟨y, hy⟩ := ih (by simpa using hlen) x h
        exact ⟨y, by simp [hy]⟩

theorem mem_zip_right {α β : Type} {l1 : List α} {l2 : List β}
    (hlen : l1.length = l2.length) :
    ∀ y ∈ l2, ∃ x, (x, y) ∈ l1.zip l2 := by
  induction l1 generalizing l2 with
  | nil => cases l2 with
    | nil => simp
    | cons b l2 => simp at hlen
  | cons a l ih =>
    cases l2 with
    | nil => simp
    | cons b l2 =>
      intro y hy
      rw [List.mem_cons] at hy
      rcases hy with h | h
      · exact ⟨a, by simp [h]⟩
      · obtain ⟨x, hx⟩ := ih (by simpa using hlen) y h
        exact ⟨x, by simp [hx]⟩

/-! Lemmas about the distance computation. -/

theorem F.abs_zero : F.abs (F.fin 0) = F.fin 0 := by simp [F.abs]

theorem F.nng_abs_sub_of_lt {u v : F} (h : F.lt u v = true) :
    F.le (F.fin 0) (F.abs (F.sub v u)) = true := by
  cases u <;> cases v <;>
    simp_all [F.lt, F.sub, F.neg, F.add, F.abs, F.le, abs_nonneg]

theorem F.nng_abs_sub_of_lt' {u v : F} (h : F.lt u v = true) :
    F.le (F.fin 0) (F.abs (F.sub u v)) = true := by
  cases u <;> cases v <;>
    simp_all [F.lt, F.sub, F.neg, F.add, F.abs, F.le, abs_nonneg]

theorem violA_nil_right (xs : List F) : violA xs [] = [] := by
  simp [violA]

theorem violA_nil_left (es : List F) : violA [] es = [] := by
  simp [violA]

theorem violB_nil_right (xs : List F) : violB xs [] = [] := by
  simp [violB]

theorem violB_nil_left (bs : List F) : violB [] bs = [] := by
  simp [violB]

theorem violA_cons_pos {x e : F} (xs es : List F) (h : F.lt e x = true) :
    violA (x :: xs) (e :: es) = F.sub x e :: violA xs es := by
  unfold violA
  rw [List.zip_cons_cons, List.filter_cons]
  simp [h]

theorem violA_cons_neg {x e : F} (xs es : List F) (h : F.lt e x = false) :
    violA (x :: xs) (e :: es) = violA xs es := by
  unfold violA
  rw [List.zip_cons_cons, List.filter_cons]
  simp [h]

theorem violB_cons_pos {x b : F} (xs bs : List F) (h : F.lt x b = true) :
    violB (x :: xs) (b :: bs) = F.sub x b :: violB xs bs := by
  unfold violB
  rw [List.zip_cons_cons, List.filter_cons]
  simp [h]

theorem violB_cons_neg {x b : F} (xs bs : List F) (h : F.lt x b = false) :
    violB (x :: xs) (b :: bs) = violB xs bs := by
  unfold violB
  rw [List.zip_cons_cons, List.filter_cons]
  simp [h]

theorem overshoot_nil (bl el : List F) :
    IntervalProd.overshoot ⟨bl, el⟩ [] = [] := rfl

theorem overshoot_cons_hi {b e x : F} (bs es xs : List F)
    (h : F.lt e x = true) :
    IntervalProd.overshoot ⟨b :: bs, e :: es⟩ (x :: xs) =
      F.sub x e :: IntervalProd.overshoot ⟨bs, es⟩ xs := by
  simp [IntervalProd.overshoot, h]

theorem overshoot_cons_lo {b e x : F} (bs es xs : List F)
    (h1 : F.lt e x = false) (h2 : F.lt x b = true) :
    IntervalProd.overshoot ⟨b :: bs, e :: es⟩ (x :: xs) =
      F.sub x b :: IntervalProd.overshoot ⟨bs, es⟩ xs := by
  simp [IntervalProd.overshoot, h1, h2]

theorem overshoot_cons_mid {b e x : F} (bs es xs : List F)
    (h1 : F.lt e x = false) (h2 : F.lt x b = false) :
    IntervalProd.overshoot ⟨b :: bs, e :: es⟩ (x :: xs) =
      F.fin 0 :: IntervalProd.overshoot ⟨bs, es⟩ xs := by
  simp [IntervalProd.overshoot, h1, h2]

theorem violA_abs_nng {xs es : List F} :
    ∀ a ∈ violA xs es, F.le (F.fin 0) (F.abs a) = true := by
  intro a ha
  unfold violA at ha
  obtain ⟨q, hq, rfl⟩ := List.mem_map.mp ha
  exact F.nng_abs_sub_of_lt (List.mem_filter.mp hq).2

theorem violB_abs_nng {xs bs : List F} :
    ∀ a ∈ violB xs bs, F.le (F.fin 0) (F.abs a) = true := by
  intro a ha
  unfold violB at ha
  obtain ⟨q, hq, rfl⟩ := List.mem_map.mp ha
  exact F.nng_abs_sub_of_lt' (List.mem_filter.mp hq).2

theorem supnorm_cons (a : F) (l : List F) :
    supnorm (a :: l) = F.fmax (F.abs a) (supnorm l) := rfl

theorem supnorm_nng {l : List F}
    (h : ∀ a ∈ l, F.le (F.fin 0) (F.abs a) = true) :
    F.le (F.fin 0) (supnorm l) = true := by
  apply fmaxList_nng
  intro b hb
  obtain ⟨a, ha, rfl⟩ := List.mem_map.mp hb
  exact h a ha

theorem supnorm_append {l1 l2 : List F}
    (h1 : ∀ a ∈ l1, F.le (F.fin 0) (F.abs a) = true)
    (h2 : ∀ a ∈ l2, F.le (F.fin 0) (F.abs a) = true) :
    supnorm (l1 ++ l2) = F.fmax (supnorm l1) (supnorm l2) := by
  unfold supnorm
  rw [List.map_append]
  apply fmaxList_append
  · intro b hb; obtain ⟨a, ha, rfl⟩ := List.mem_map.mp hb; exact h1 a ha
  · intro b hb; obtain ⟨a, ha, rfl⟩ := List.mem_map.mp hb; exact h2 a ha

theorem F.fmax_left_comm {x y z : F} (hx : x ≠ F.nan) (hy : y ≠ F.nan)
    (hz : z ≠ F.nan) : F.fmax x (F.fmax y z) = F.fmax y (F.fmax x z) := by
  rw [← F.fmax_assoc hx hy hz, F.fmax_comm hx hy, F.fmax_assoc hy hx hz]

theorem F.powNat_zero_base {p : ℕ} (hp : 1 ≤ p) :
    F.powNat (F.fin 0) p = F.fin 0 := by
  obtain ⟨n, rfl⟩ : ∃ n, p = n + 1 := ⟨p - 1, by omega⟩
  simp [F.powNat, zero_pow (Nat.succ_ne_zero n)]

theorem powsum_viol_eq (p : ℕ) (hp : 1 ≤ p) :
    ∀ (bl el xl : List F), bl.length = el.length → el.length = xl.length →
      (∀ q ∈ bl.zip el, F.le q.1 q.2 = true) →
      F.add (powsum p (violA xl el)) (powsum p (violB xl bl)) =
        powsum p (IntervalProd.overshoot ⟨bl, el⟩ xl) := by
  intro bl
  induction bl with
  | nil =>
    intro el xl h1 h2 _
    cases el with
    | nil =>
      cases xl with
      | nil => simp [violA_nil_left, violB_nil_left, overshoot_nil, powsum, fsum, F.add]
      | cons x xs => simp at h2
    | cons e es => simp at h1
  | cons b bs ih =>
    intro el xl h1 h2 hle
    cases el with
    | nil => simp at h1
    | cons e es =>
      cases xl with
      | nil => simp at h2
      | cons x xs =>
        have hle0 : F.le b e = true := hle (b, e) (by simp)
        have hles : ∀ q ∈ bs.zip es, F.le q.1 q.2 = true := by
          intro q hq; exact hle q (by simp [hq])
        have ihs := ih es xs (by simpa using h1) (by simpa using h2) hles
        cases hlt1 : F.lt e x with
        | true =>
          have hlt2 : F.lt x b = false := F.not_lt_of_le_lt hle0 hlt1
          rw [violA_cons_pos xs es hlt1, violB_cons_neg xs bs hlt2,
            overshoot_cons_hi bs es xs hlt1, powsum_cons, powsum_cons,
            F.add_assoc, ihs]
        | false =>
          cases hlt2 : F.lt x b with
          | true =>
            rw [violA_cons_neg xs es hlt1, violB_cons_pos xs bs hlt2,
              overshoot_cons_lo bs es xs hlt1 hlt2, powsum_cons, powsum_cons,
              F.add_left_comm, ihs]
          | false =>
            rw [violA_cons_neg xs es hlt1, violB_cons_neg xs bs hlt2,
              overshoot_cons_mid bs es xs hlt1 hlt2, powsum_cons, F.abs_zero,
              F.powNat_zero_base hp, F.zero_add, ihs]

theorem sup_viol_eq :
    ∀ (bl el xl : List F), bl.length = el.length → el.length = xl.length →
      (∀ q ∈ bl.zip el, F.le q.1 q.2 = true) →
      F.fmax (supnorm (violA xl el)) (supnorm (violB xl bl)) =
        supnorm (IntervalProd.overshoot ⟨bl, el⟩ xl) := by
  intro bl
  induction bl with
  | nil =>
    intro el xl h1 h2 _
    cases el with
    | nil =>
      cases xl with
      | nil =>
        simp only [violA_nil_left, violB_nil_left, overshoot_nil]
        exact F.fmax_zero_left (by simp [supnorm, fmaxList, F.le])
      | cons x xs => simp at h2
    | cons e es => simp at h1
  | cons b bs ih =>
    intro el xl h1 h2 hle
    cases el with
    | nil => simp at h1
    | cons e es =>
      cases xl with
      | nil => simp at h2
      | cons x xs =>
        have hle0 : F.le b e = true := hle (b, e) (by simp)
        have hles : ∀ q ∈ bs.zip es, F.le q.1 q.2 = true := by
          intro q hq; exact hle q (by simp [hq])
        have ihs := ih es xs (by simpa using h1) (by simpa using h2) hles
        have hA := supnorm_nng (@violA_abs_nng xs es)
        have hB := supnorm_nng (@violB_abs_nng xs bs)
        cases hlt1 : F.lt e x with
        | true =>
          have hlt2 : F.lt x b = false := F.not_lt_of_le_lt hle0 hlt1
          rw [violA_cons_pos xs es hlt1, violB_cons_neg xs bs hlt2,
            overshoot_cons_hi bs es xs hlt1, supnorm_cons, supnorm_cons,
            F.fmax_assoc (F.ne_nan_of_nng (F.nng_abs_sub_of_lt hlt1))
              (F.ne_nan_of_nng hA) (F.ne_nan_of_nng hB), ihs]
        | false =>
          cases hlt2 : F.lt x b with
          | true =>
            rw [violA_cons_neg xs es hlt1, violB_cons_pos xs bs hlt2,
              overshoot_cons_lo bs es xs hlt1 hlt2, supnorm_cons, supnorm_cons,
              F.fmax_left_comm (F.ne_nan_of_nng hA)
                (F.ne_nan_of_nng (F.nng_abs_sub_of_lt' hlt2))
                (F.ne_nan_of_nng hB), ihs]
          | false =>
            rw [violA_cons_neg xs es hlt1, violB_cons_neg xs bs hlt2,
              overshoot_cons_mid bs es xs hlt1 hlt2, supnorm_cons, F.abs_zero,
              ihs, F.fmax_zero_left]
            rw [← ihs]
            exact F.fmax_nng hA hB

theorem viol_nil_of_inBounds :
    ∀ (bl el xl : List F), bl.length = el.length → el.length = xl.length →
      (∀ q ∈ xl.zip (bl.zip el),
        F.le q.2.1 q.1 = true ∧ F.le q.1 q.2.2 = true) →
      violA xl el = [] ∧ violB xl bl = [] := by
  intro bl
  induction bl with
  | nil =>
    intro el xl h1 h2 _
    cases el with
    | nil =>
      cases xl with
      | nil => simp [violA_nil_left, violB_nil_left]
      | cons x xs => simp at h2
    | cons e es => simp at h1
  | cons b bs ih =>
    intro el xl h1 h2 hib
    cases el with
    | nil => simp at h1
    | cons e es =>
      cases xl with
      | nil => simp at h2
      | cons x xs =>
        have hx : F.le b x = true ∧ F.le x e = true :=
          hib (x, (b, e)) (by simp)
        have hrest := ih es xs (by simpa using h1) (by simpa using h2)
          (fun q hq => hib q (by simp [hq]))
        rw [violA_cons_neg xs es (F.not_lt_of_le hx.2),
          violB_cons_neg xs bs (F.not_lt_of_le hx.1)]
        exact hrest

/-! Constructor and validity lemmas. -/

theorem make_eq_ok {b e : List F} (hlen : b.length = e.length)
    (hle : ∀ p ∈ b.zip e, F.le p.1 p.2 = true) :
    IntervalProd.make b e = .ok ⟨b, e⟩ := by
  unfold IntervalProd.make
  rw [if_neg (by simp [hlen]), if_pos (List.all_eq_true.mpr hle)]

theorem valid_of_make_ok {b e : List F} {bx : IntervalProd}
    (h : IntervalProd.make b e = .ok bx) : bx.valid ∧ bx = ⟨b, e⟩ := by
  unfold IntervalProd.make at h
  split at h
  · simp at h
  · rename_i hlen
    split at h
    · rename_i hall
      cases h
      exact ⟨⟨(by omega : b.length = e.length), List.all_eq_true.mp hall⟩, rfl⟩
    · simp at h

theorem make_ok_self {bx : IntervalProd} (h : bx.valid) :
    IntervalProd.make bx.begin bx.endp = .ok bx :=
  make_eq_ok h.1 h.2

theorem valid_entry_begin_ne_nan {bx : IntervalProd} (h : bx.valid) :
    ∀ x ∈ bx.begin, x ≠ F.nan := by
  intro x hx
  obtain ⟨y, hy⟩ := mem_zip_left h.1 x hx
  exact F.ne_nan_left_of_le (h.2 (x, y) hy)

theorem valid_entry_endp_ne_nan {bx : IntervalProd} (h : bx.valid) :
    ∀ y ∈ bx.endp, y ≠ F.nan := by
  intro y hy
  obtain ⟨x, hx⟩ := mem_zip_right h.1 y hy
  exact F.ne_nan_right_of_le (h.2 (x, y) hx)

theorem F.beq_refl {x : F} (h : x ≠ F.nan) : F.beq x x = true := by
  cases x <;> simp_all [F.beq]

theorem nondeg_eq_spec {bx : IntervalProd} (h : bx.valid) :
    bx.nondegPairs = bx.specNondeg := by
  unfold IntervalProd.nondegPairs IntervalProd.specNondeg
  apply List.filter_congr
  intro p hp
  have hle := h.2 p hp
  have h1 := F.ne_nan_left_of_le hle
  have h2 := F.ne_nan_right_of_le hle
  by_cases he : p.1 = p.2
  · simp [he, F.beq_refl h2]
  · have hb : F.beq p.1 p.2 = false := by
      cases hbeq : F.beq p.1 p.2
      · rfl
      · exact absurd ((F.beq_iff_eq h1).mp hbeq) he
    simp [hb, he]

theorem truedim_eq_spec {bx : IntervalProd} (h : bx.valid) :
    bx.truedim = bx.specTruedim :=
  congrArg List.length (nondeg_eq_spec h)

theorem zip_length_of_valid {bx : IntervalProd} (h : bx.valid) :
    (bx.begin.zip bx.endp).length = bx.dim := by
  rw [List.length_zip, ← h.1, min_self]; rfl

theorem truedim_le_dim {bx : IntervalProd} (h : bx.valid) :
    bx.truedim ≤ bx.dim := by
  have h1 := List.length_filter_le (fun p => !(F.beq p.1 p.2)) (bx.begin.zip bx.endp)
  have h2 := zip_length_of_valid h
  unfold IntervalProd.truedim IntervalProd.nondegPairs
  omega

theorem measure_some {bx : IntervalProd} (h0 : bx.truedim ≠ 0) (d : ℤ) :
    bx.measure (some d) = bx.measureAt d := by
  unfold IntervalProd.measure
  rw [if_neg h0]

theorem measure_none {bx : IntervalProd} (h0 : bx.truedim ≠ 0) :
    bx.measure none = bx.measureAt (bx.truedim : ℤ) := by
  unfold IntervalProd.measure
  rw [if_neg h0]

theorem measureAt_of_lt {bx : IntervalProd} {d : ℤ}
    (hd : d < (bx.truedim : ℤ)) : bx.measureAt d = F.pinf := by
  unfold IntervalProd.measureAt
  rw [if_pos hd]

theorem measureAt_of_gt {bx : IntervalProd} {d : ℤ}
    (hd : (bx.truedim : ℤ) < d) : bx.measureAt d = F.fin 0 := by
  unfold IntervalProd.measureAt
  rw [if_neg (by omega), if_pos hd]

theorem measureAt_of_eq {bx : IntervalProd} {d : ℤ}
    (hd : d = (bx.truedim : ℤ)) : bx.measureAt d = fprod bx.sizeNondeg := by
  unfold IntervalProd.measureAt
  rw [if_neg (by omega), if_neg (by omega)]

/-- C1: for every box, `measure(dim)` follows the generalized Hausdorff
convention — `truedim == 0` returns 0.0 regardless of the requested
dimension; otherwise an omitted `dim` defaults to `truedim`, `dim < truedim`
returns +infinity, `dim > truedim` returns 0.0, and `dim == truedim` returns
the product of the sizes of the non-degenerate axes. -/
theorem measure_hausdorff_convention (bx : IntervalProd) (h : bx.valid) :
    (bx.specTruedim = 0 → ∀ d? : Option ℤ, bx.measure d? = F.fin 0) ∧
    (bx.specTruedim ≠ 0 →
      bx.measure none = bx.measure (some (bx.specTruedim : ℤ)) ∧
      ∀ d : ℤ,
        (d < (bx.specTruedim : ℤ) → bx.measure (some d) = F.pinf) ∧
        ((bx.specTruedim : ℤ) < d → bx.measure (some d) = F.fin 0) ∧
        (d = (bx.specTruedim : ℤ) → bx.measure (some d) = bx.specProd)) := by
  have htd := truedim_eq_spec h
  constructor
  · intro h0 d?
    unfold IntervalProd.measure
    rw [if_pos (htd.trans h0)]
  · intro h0
    have ht0 : ¬ bx.truedim = 0 := by rw [htd]; exact h0
    constructor
    · rw [measure_none ht0, measure_some ht0, htd]
    · intro d
      refine ⟨fun hd => ?_, fun hd => ?_, fun hd => ?_⟩ <;> rw [measure_some ht0]
      · exact measureAt_of_lt (by omega)
      · exact measureAt_of_gt (by omega)
      · rw [measureAt_of_eq (by omega)]
        unfold IntervalProd.specProd IntervalProd.sizeNondeg
        rw [nondeg_eq_spec h]

/-- Witness for C1, at the box `[-1, 0] x [2, 10] x {3}` (truedim 2). -/
theorem measure_hausdorff_convention_witness :
    (⟨[F.fin (-1), F.fin 2, F.fin 3],
      [F.fin 0, F.fin 10, F.fin 3]⟩ : IntervalProd).valid ∧
    (⟨[F.fin (-1), F.fin 2, F.fin 3],
      [F.fin 0, F.fin 10, F.fin 3]⟩ : IntervalProd).specTruedim ≠ 0 ∧
    ((⟨[F.fin (-1), F.fin 2, F.fin 3],
      [F.fin 0, F.fin 10, F.fin 3]⟩ : IntervalProd).measure none =
        (⟨[F.fin (-1), F.fin 2, F.fin 3],
          [F.fin 0, F.fin 10, F.fin 3]⟩ : IntervalProd).measure (some 2) ∧
      (⟨[F.fin (-1), F.fin 2, F.fin 3],
        [F.fin 0, F.fin 10, F.fin 3]⟩ : IntervalProd).measure (some 2) =
        (⟨[F.fin (-1), F.fin 2, F.fin 3],
          [F.fin 0, F.fin 10, F.fin 3]⟩ : IntervalProd).specProd) := by
  refine ⟨by decide, by decide, ?_, ?_⟩
  · exact ((measure_hausdorff_convention _ (by decide)).2 (by decide)).1
  · exact (((measure_hausdorff_convention _ (by decide)).2 (by decide)).2 2).2.2 (by decide)

theorem filter_length_lt_of_exists {α : Type} (p : α → Bool) (l : List α)
    (x : α) (hx : x ∈ l) (hpx : p x = false) :
    (l.filter p).length < l.length := by
  induction l with
  | nil => simp at hx
  | cons a l ih =>
    rw [List.mem_cons] at hx
    rw [List.filter_cons]
    rcases hx with h | h
    · subst h
      rw [hpx]
      simp only [List.length_cons]
      exact Nat.lt_succ_of_le (List.length_filter_le p l)
    · cases hpa : p a <;> simp only [List.length_cons]
      · exact Nat.lt_succ_of_lt (ih h)
      · exact Nat.succ_lt_succ (ih h)

theorem squeeze_eq {bx : IntervalProd} (h : bx.valid) :
    bx.squeeze =
      .ok ⟨bx.nondegPairs.map Prod.fst, bx.nondegPairs.map Prod.snd⟩ := by
  apply make_eq_ok
  · simp
  · intro p hp
    rw [List.zip_map'] at hp
    simp only [Prod.mk.eta, List.map_id'] at hp
    exact h.2 p (List.mem_of_mem_filter hp)

theorem nondegPairs_squeezed (bx : IntervalProd) :
    IntervalProd.nondegPairs
        ⟨bx.nondegPairs.map Prod.fst, bx.nondegPairs.map Prod.snd⟩ =
      bx.nondegPairs := by
  unfold IntervalProd.nondegPairs
  rw [List.zip_map']
  simp only [Prod.mk.eta, List.map_id']
  apply List.filter_eq_self.mpr
  intro q hq
  exact (List.mem_filter.mp hq).2

/-- C3: for every box, `volume` equals `measure(dim=dim)` (so a box that is
degenerate in any axis has ambient-dimensional volume 0.0), and `measure()`
equals `squeeze().volume`. -/
theorem volume_measure_squeeze (bx : IntervalProd) (h : bx.valid) :
    bx.volume = bx.measure (some (bx.dim : ℤ)) ∧
    ((∃ q ∈ bx.begin.zip bx.endp, q.1 = q.2) → bx.volume = F.fin 0) ∧
    ∃ s, bx.squeeze = .ok s ∧ bx.measure none = s.volume := by
  refine ⟨rfl, ?_, ?_⟩
  · rintro ⟨q, hq, he⟩
    have hqn := F.ne_nan_right_of_le (h.2 q hq)
    have hb : (!(F.beq q.1 q.2)) = false := by
      rw [he, F.beq_refl hqn]; rfl
    have hlt : bx.truedim < bx.dim := by
      have h1 := filter_length_lt_of_exists (fun p => !(F.beq p.1 p.2))
        (bx.begin.zip bx.endp) q hq hb
      have h2 := zip_length_of_valid h
      unfold IntervalProd.truedim IntervalProd.nondegPairs
      omega
    unfold IntervalProd.volume
    by_cases h0 : bx.truedim = 0
    · unfold IntervalProd.measure
      rw [if_pos h0]
    · rw [measure_some h0]
      exact measureAt_of_gt (by omega)
  · refine ⟨_, squeeze_eq h, ?_⟩
    have hnd := nondegPairs_squeezed bx
    have hsd : (⟨bx.nondegPairs.map Prod.fst,
        bx.nondegPairs.map Prod.snd⟩ : IntervalProd).dim = bx.truedim := by
      simp [IntervalProd.dim, IntervalProd.truedim]
    have hst : (⟨bx.nondegPairs.map Prod.fst,
        bx.nondegPairs.map Prod.snd⟩ : IntervalProd).truedim = bx.truedim :=
      congrArg List.length hnd
    by_cases h0 : bx.truedim = 0
    · unfold IntervalProd.measure IntervalProd.volume IntervalProd.measure
      rw [if_pos h0, if_pos (hst.trans h0)]
    · unfold IntervalProd.volume
      rw [measure_none h0, measure_some (by rw [hst]; exact h0)]
      rw [measureAt_of_eq rfl, measureAt_of_eq (by rw [hsd, hst])]
      unfold IntervalProd.sizeNondeg
      rw [hnd]

/-- Witness for C3, at the box `[-1, 0] x {4} x [2, 10]` (one degenerate
axis). -/
theorem volume_measure_squeeze_witness :
    (⟨[F.fin (-1), F.fin 4, F.fin 2],
      [F.fin 0, F.fin 4, F.fin 10]⟩ : IntervalProd).valid ∧
    ((⟨[F.fin (-1), F.fin 4, F.fin 2],
      [F.fin 0, F.fin 4, F.fin 10]⟩ : IntervalProd).volume = F.fin 0 ∧
    ∃ s, (⟨[F.fin (-1), F.fin 4, F.fin 2],
      [F.fin 0, F.fin 4, F.fin 10]⟩ : IntervalProd).squeeze = .ok s ∧
      (⟨[F.fin (-1), F.fin 4, F.fin 2],
        [F.fin 0, F.fin 4, F.fin 10]⟩ : IntervalProd).measure none = s.volume) := by
  refine ⟨by decide, ?_, ?_⟩
  · exact (volume_measure_squeeze _ (by decide)).2.1
      ⟨(F.fin 4, F.fin 4), by decide, rfl⟩
  · exact (volume_measure_squeeze _ (by decide)).2.2

/-- C9: every `IntervalProd` value observable by a caller — produced by the
validating constructor or returned by `collapse`, `squeeze` or `insert` —
satisfies the construction invariants I1 and I2 (`len(begin) == len(end) ==
dim`, dim ≥ 0 being automatic for a list length, and `begin[i] <= end[i]`
on every axis).  Every operation is a pure function into `Except`, so it
either returns such a value or an error: no partially built value is ever
observable. -/
theorem construction_invariants :
    (∀ (b e : List F) (bx : IntervalProd),
      IntervalProd.make b e = .ok bx →
        bx.valid ∧ bx.begin.length = bx.dim ∧ bx.endp.length = bx.dim) ∧
    (∀ (bx : IntervalProd) (indcs : List ℤ) (values : List F)
      (bx' : IntervalProd), bx.collapse indcs values = .ok bx' → bx'.valid) ∧
    (∀ (bx bx' : IntervalProd), bx.squeeze = .ok bx' → bx'.valid) ∧
    (∀ (bx other : IntervalProd) (i : ℤ) (bx' : IntervalProd),
      bx.insert other i = .ok bx' → bx'.valid) := by
  refine ⟨?_, ?_, ?_, ?_⟩
  · intro b e bx hmk
    have hv := (valid_of_make_ok hmk).1
    exact ⟨hv, rfl, hv.1.symm⟩
  · intro bx indcs values bx' hc
    unfold IntervalProd.collapse at hc
    split at hc
    · simp at hc
    · split at hc
      · simp at hc
      · split at hc
        · simp at hc
        · split at hc
          · simp at hc
          · exact (valid_of_make_ok hc).1
  · intro bx bx' hs
    unfold IntervalProd.squeeze at hs
    exact (valid_of_make_ok hs).1
  · intro bx other i bx' hi
    unfold IntervalProd.insert at hi
    split at hi
    · exact (valid_of_make_ok hi).1
    · simp at hi

/-- Witness for C9: the four implications applied at concrete inputs. -/
theorem construction_invariants_witness :
    (⟨[F.fin 0], [F.fin 1]⟩ : IntervalProd).valid ∧
    (⟨[F.fin 0, F.fin 2], [F.fin 0, F.fin 3]⟩ : IntervalProd).valid ∧
    (⟨[F.fin 2], [F.fin 3]⟩ : IntervalProd).valid ∧
    (⟨[F.fin 0, F.fin 7], [F.fin 1, F.fin 7]⟩ : IntervalProd).valid := by
  refine ⟨((construction_invariants.1) [F.fin 0] [F.fin 1]
      ⟨[F.fin 0], [F.fin 1]⟩ (by decide)).1,
    construction_invariants.2.1 ⟨[F.fin 0, F.fin 2], [F.fin 1, F.fin 3]⟩
      [0] [F.fin 0] ⟨[F.fin 0, F.fin 2], [F.fin 0, F.fin 3]⟩ ?_,
    construction_invariants.2.2.1 ⟨[F.fin 0, F.fin 2], [F.fin 0, F.fin 3]⟩
      ⟨[F.fin 2], [F.fin 3]⟩ ?_,
    construction_invariants.2.2.2 ⟨[F.fin 0], [F.fin 1]⟩ ⟨[F.fin 7], [F.fin 7]⟩
      1 ⟨[F.fin 0, F.fin 7], [F.fin 1, F.fin 7]⟩ ?_⟩ <;>
    norm_num [IntervalProd.collapse, IntervalProd.squeeze, IntervalProd.insert,
      IntervalProd.make, IntervalProd.nondegPairs, IntervalProd.dim, assign,
      F.le, F.lt, F.beq]

theorem violations_split (bx : IntervalProd) (pt : List F) :
    bx.violations pt = violA pt bx.endp ++ violB pt bx.begin := rfl

theorem endp_length_eq_pt {bx : IntervalProd} {pt : List F} (h : bx.valid)
    (hlen : pt.length = bx.dim) : bx.endp.length = pt.length := by
  have h1 : bx.dim = bx.begin.length := rfl
  have h2 := h.1
  omega

theorem dist_sup_ok {bx : IntervalProd} {pt : List F} (h : bx.valid)
    (hlen : pt.length = bx.dim) :
    bx.dist_sup pt = .ok (supnorm (bx.overshoot pt)) := by
  have key := sup_viol_eq bx.begin bx.endp pt h.1 (endp_length_eq_pt h hlen) h.2
  have hbx : (⟨bx.begin, bx.endp⟩ : IntervalProd) = bx := rfl
  rw [hbx] at key
  unfold IntervalProd.dist_sup
  rw [if_neg (by simp [hlen])]
  by_cases hv : (bx.violations pt).isEmpty = true
  · rw [if_pos hv]
    have hnil : bx.violations pt = [] := List.isEmpty_iff.mp hv
    rw [violations_split] at hnil
    obtain ⟨hA, hB⟩ := List.append_eq_nil.mp hnil
    rw [hA, hB] at key
    rw [show supnorm [] = F.fin 0 from rfl,
      F.fmax_zero_left (by simp [F.le])] at key
    rw [← key]
  · rw [if_neg hv, violations_split,
      supnorm_append violA_abs_nng violB_abs_nng, key]

theorem dist_pow_ok {bx : IntervalProd} {pt : List F} (h : bx.valid)
    (hlen : pt.length = bx.dim) {p : ℕ} (hp : 1 ≤ p) :
    bx.dist_pow p pt = .ok (powsum p (bx.overshoot pt)) := by
  have key := powsum_viol_eq p hp bx.begin bx.endp pt h.1
    (endp_length_eq_pt h hlen) h.2
  have hbx : (⟨bx.begin, bx.endp⟩ : IntervalProd) = bx := rfl
  rw [hbx] at key
  unfold IntervalProd.dist_pow
  rw [if_neg (by simp [hlen])]
  by_cases hv : (bx.violations pt).isEmpty = true
  · rw [if_pos hv]
    have hnil : bx.violations pt = [] := List.isEmpty_iff.mp hv
    rw [violations_split] at hnil
    obtain ⟨hA, hB⟩ := List.append_eq_nil.mp hnil
    rw [hA, hB] at key
    rw [show powsum p [] = F.fin 0 from rfl, F.zero_add] at key
    rw [← key]
  · rw [if_neg hv, violations_split, powsum_append, key]

theorem violations_nil_of_inBounds {bx : IntervalProd} {pt : List F}
    (h : bx.valid) (hlen : pt.length = bx.dim) (hib : bx.inBounds pt) :
    bx.violations pt = [] := by
  have := viol_nil_of_inBounds bx.begin bx.endp pt h.1
    (endp_length_eq_pt h hlen) hib
  rw [violations_split, this.1, this.2]
  rfl

/-- C4: `dist` raises DimensionMismatch exactly when the point's length
differs from `dim`; when the lengths match it returns 0.0 on an in-bounds
point and in general returns the ord-norm of the claim's overshoot vector
(one entry per axis, in-bounds axes contributing nothing): stated for the
infinity-norm directly and, for every finite order `p >= 1`, through the
p-th power of the p-norm (two nonnegative vectors have equal p-norm iff
their `powsum` agree, which keeps the statement in exact arithmetic). -/
theorem dist_dimension_and_overshoot (bx : IntervalProd) (pt : List F)
    (h : bx.valid) :
    (bx.dist_sup pt = .error .dimensionMismatch ↔ pt.length ≠ bx.dim) ∧
    (∀ p : ℕ, bx.dist_pow p pt = .error .dimensionMismatch ↔
      pt.length ≠ bx.dim) ∧
    (pt.length = bx.dim →
      (bx.inBounds pt → bx.dist_sup pt = .ok (F.fin 0)) ∧
      bx.dist_sup pt = .ok (supnorm (bx.overshoot pt)) ∧
      ∀ p : ℕ, 1 ≤ p → bx.dist_pow p pt = .ok (powsum p (bx.overshoot pt))) := by
  refine ⟨?_, ?_, ?_⟩
  · unfold IntervalProd.dist_sup
    split
    · rename_i hl; simp [hl]
    · rename_i hl; split <;> simp [hl]
  · intro p
    unfold IntervalProd.dist_pow
    split
    · rename_i hl; simp [hl]
    · rename_i hl; split <;> simp [hl]
  · intro hlen
    refine ⟨fun hib => ?_, dist_sup_ok h hlen, fun p hp => dist_pow_ok h hlen hp⟩
    unfold IntervalProd.dist_sup
    rw [if_neg (by simp [hlen]),
      if_pos (by rw [violations_nil_of_inBounds h hlen hib]; rfl)]

/-- Witness for C4, at the box `[-1, 0] x {0} x [2, 3]` and point
`(-5, 3, 2)` (distance 4 in the sup-norm, 25 as the squared 2-norm). -/
theorem dist_dimension_and_overshoot_witness :
    (⟨[F.fin (-1), F.fin 0, F.fin 2],
      [F.fin 0, F.fin 0, F.fin 3]⟩ : IntervalProd).valid ∧
    ([F.fin (-5), F.fin 3, F.fin 2].length =
      (⟨[F.fin (-1), F.fin 0, F.fin 2],
        [F.fin 0, F.fin 0, F.fin 3]⟩ : IntervalProd).dim) ∧
    (⟨[F.fin (-1), F.fin 0, F.fin 2],
      [F.fin 0, F.fin 0, F.fin 3]⟩ : IntervalProd).dist_sup
        [F.fin (-5), F.fin 3, F.fin 2] =
      .ok (supnorm ((⟨[F.fin (-1), F.fin 0, F.fin 2],
        [F.fin 0, F.fin 0, F.fin 3]⟩ : IntervalProd).overshoot
          [F.fin (-5), F.fin 3, F.fin 2])) ∧
    (⟨[F.fin (-1), F.fin 0, F.fin 2],
      [F.fin 0, F.fin 0, F.fin 3]⟩ : IntervalProd).dist_pow 2
        [F.fin (-5), F.fin 3, F.fin 2] =
      .ok (powsum 2 ((⟨[F.fin (-1), F.fin 0, F.fin 2],
        [F.fin 0, F.fin 0, F.fin 3]⟩ : IntervalProd).overshoot
          [F.fin (-5), F.fin 3, F.fin 2])) := by
  refine ⟨by decide, by decide, ?_, ?_⟩
  · exact ((dist_dimension_and_overshoot _ _ (by decide)).2.2 (by decide)).2.1
  · exact ((dist_dimension_and_overshoot _ _ (by decide)).2.2 (by decide)).2.2
      2 (by omega)

/-! Lemmas for containment of the box's own bounds. -/

theorem violations_begin {bx : IntervalProd} (h : bx.valid) :
    bx.violations bx.begin = [] := by
  rw [violations_split]
  have hA : violA bx.begin bx.endp = [] := by
    unfold violA
    rw [List.filter_eq_nil.mpr ?_]
    · rfl
    · intro p hp
      simp [F.not_lt_of_le (h.2 p hp)]
  have hB : violB bx.begin bx.begin = [] := by
    unfold violB
    rw [List.filter_eq_nil.mpr ?_]
    · rfl
    · intro p hp
      rw [mem_zip_self p hp]
      simp [F.lt_irrefl]
  rw [hA, hB]
  rfl

theorem violations_endp {bx : IntervalProd} (h : bx.valid) :
    bx.violations bx.endp = [] := by
  rw [violations_split]
  have hA : violA bx.endp bx.endp = [] := by
    unfold violA
    rw [List.filter_eq_nil.mpr ?_]
    · rfl
    · intro p hp
      rw [mem_zip_self p hp]
      simp [F.lt_irrefl]
  have hB : violB bx.endp bx.begin = [] := by
    unfold violB
    rw [List.filter_eq_nil.mpr ?_]
    · rfl
    · intro p hp
      rw [← List.zip_swap] at hp
      obtain ⟨q, hq, rfl⟩ := List.mem_map.mp hp
      simp [Prod.swap, F.not_lt_of_le (h.2 q hq)]
  rw [hA, hB]
  rfl

theorem contains_of_dist_zero {bx : IntervalProd} {pt : List F} {tol : ℚ}
    (hlen : pt.length = bx.dim) (hpt : pt ≠ [])
    (hds : bx.dist_sup pt = .ok (F.fin 0)) (htol : 0 ≤ tol) :
    bx.contains pt tol = .ok true := by
  unfold IntervalProd.contains
  rw [if_neg (by simp [hlen])]
  obtain ⟨p0, rest, rfl⟩ := List.exists_cons_of_ne_nil hpt
  show (if realContains p0 = true then
      match bx.dist_sup (p0 :: rest) with
      | Except.error e => Except.error e
      | Except.ok d => Except.ok (!(F.lt (F.fin tol) d))
    else Except.ok false) = Except.ok true
  rw [if_pos (by simp [realContains]), hds]
  simp [F.lt, not_lt.mpr htol]

/-- C6 counterexample: on the (valid, construction-invariant-satisfying)
0-dimensional box, `contains(begin, tol=0)` does not return true — the
source evaluates `point[0]` on the empty point, an IndexError. -/
theorem contains_bounds_counterexample :
    (⟨[], []⟩ : IntervalProd).valid ∧
    (⟨[], []⟩ : IntervalProd).contains (⟨[], []⟩ : IntervalProd).begin 0 =
      .error .scalarIndexError ∧
    ¬ ((⟨[], []⟩ : IntervalProd).contains (⟨[], []⟩ : IntervalProd).begin 0 =
      .ok true) := by
  exact ⟨by decide, by decide, by decide⟩

/-- C6 (amended): for every box of dimension at least 1 satisfying the
construction invariants, `contains(begin, tol=0)` and `contains(end, tol=0)`
both return true — containment is boundary-inclusive.  (The claim's original
"any dimension >= 0" fails only at dimension 0, where `point[0]` raises.) -/
theorem contains_bounds_amended (bx : IntervalProd) (h : bx.valid)
    (hdim : 0 < bx.dim) :
    bx.contains bx.begin 0 = .ok true ∧ bx.contains bx.endp 0 = .ok true := by
  constructor
  · have hds : bx.dist_sup bx.begin = .ok (F.fin 0) := by
      unfold IntervalProd.dist_sup
      rw [if_neg (by simp [IntervalProd.dim]),
        if_pos (by rw [violations_begin h]; rfl)]
    exact contains_of_dist_zero rfl (List.length_pos.mp hdim) hds le_rfl
  · have hlen : bx.endp.length = bx.dim := h.1.symm
    have hne : bx.endp ≠ [] := List.length_pos.mp (by omega)
    have hds : bx.dist_sup bx.endp = .ok (F.fin 0) := by
      unfold IntervalProd.dist_sup
      rw [if_neg (by simp [hlen]), if_pos (by rw [violations_endp h]; rfl)]
    exact contains_of_dist_zero hlen hne hds le_rfl

/-- Witness for the amended C6, at the interval `[0, 1]`. -/
theorem contains_bounds_amended_witness :
    (⟨[F.fin 0], [F.fin 1]⟩ : IntervalProd).valid ∧
    0 < (⟨[F.fin 0], [F.fin 1]⟩ : IntervalProd).dim ∧
    (⟨[F.fin 0], [F.fin 1]⟩ : IntervalProd).contains [F.fin 0] 0 = .ok true ∧
    (⟨[F.fin 0], [F.fin 1]⟩ : IntervalProd).contains [F.fin 1] 0 = .ok true :=
  ⟨by decide, by decide,
    (contains_bounds_amended _ (by decide) (by decide)).1,
    (contains_bounds_amended _ (by decide) (by decide)).2⟩

/-! Lemmas for the insert/squeeze round trip. -/

theorem zip_take_eq {α β : Type} :
    ∀ (n : ℕ) (l1 : List α) (l2 : List β),
      (l1.take n).zip (l2.take n) = (l1.zip l2).take n := by
  intro n
  induction n with
  | zero => simp
  | succ n ih => intro l1 l2; cases l1 <;> cases l2 <;> simp [ih]

theorem zip_drop_eq {α β : Type} :
    ∀ (n : ℕ) (l1 : List α) (l2 : List β),
      (l1.drop n).zip (l2.drop n) = (l1.zip l2).drop n := by
  intro n
  induction n with
  | zero => simp
  | succ n ih => intro l1 l2; cases l1 <;> cases l2 <;> simp [ih]

theorem allclose_self {l : List F} (h : ∀ x ∈ l, x ≠ F.nan) :
    allclose l l 0 = .ok true := by
  unfold allclose
  rw [if_pos rfl]
  congr 1
  apply List.all_eq_true.mpr
  intro p hp
  have h1 : p.1 ∈ l := (List.mem_zip hp).1
  rw [mem_zip_self p hp]
  exact fclose_refl (mem_zip_self p hp ▸ h p.1 h1) le_rfl

theorem equals_self {bx : IntervalProd} (h : bx.valid) :
    bx.equals (.box bx) 0 = .ok true := by
  unfold IntervalProd.equals
  show (match allclose bx.begin bx.begin 0 with
    | Except.error e => Except.error e
    | Except.ok false => Except.ok false
    | Except.ok true => allclose bx.endp bx.endp 0) = Except.ok true
  rw [allclose_self (valid_entry_begin_ne_nan h)]
  exact allclose_self (valid_entry_endp_ne_nan h)

/-- C2 counterexample: for the valid box `{0} x [0, 1]` (dimension 2, one
degenerate axis) and the degenerate box `{5}`, inserting at position 0 and
squeezing does not recover the original box — squeeze drops the receiver's
own degenerate axis as well, and `equals` returns false. -/
theorem insert_squeeze_counterexample :
    (⟨[F.fin 0, F.fin 0], [F.fin 0, F.fin 1]⟩ : IntervalProd).valid ∧
    (⟨[F.fin 5], [F.fin 5]⟩ : IntervalProd).valid ∧
    (∀ q ∈ (⟨[F.fin 5], [F.fin 5]⟩ : IntervalProd).begin.zip
      (⟨[F.fin 5], [F.fin 5]⟩ : IntervalProd).endp, q.1 = q.2) ∧
    (⟨[F.fin 0, F.fin 0], [F.fin 0, F.fin 1]⟩ : IntervalProd).insert
      ⟨[F.fin 5], [F.fin 5]⟩ 0 =
      .ok ⟨[F.fin 5, F.fin 0, F.fin 0], [F.fin 5, F.fin 0, F.fin 1]⟩ ∧
    (⟨[F.fin 5, F.fin 0, F.fin 0],
      [F.fin 5, F.fin 0, F.fin 1]⟩ : IntervalProd).squeeze =
      .ok ⟨[F.fin 0], [F.fin 1]⟩ ∧
    (⟨[F.fin 0], [F.fin 1]⟩ : IntervalProd).equals
      (.box ⟨[F.fin 0, F.fin 0], [F.fin 0, F.fin 1]⟩) 0 = .ok false := by
  refine ⟨by decide, by decide, by decide, ?_, ?_, ?_⟩
  · norm_num [IntervalProd.insert, IntervalProd.make, IntervalProd.dim, F.le]
  · norm_num [IntervalProd.squeeze, IntervalProd.nondegPairs, IntervalProd.make,
      F.beq, F.le]
  · norm_num [IntervalProd.equals, allclose, fclose]

/-- C2 (amended): for every box `b` with no degenerate axes, every valid
degenerate box `d` (or scalar/array interpreted as one) and every splice
position `0 <= i <= dim`, `b.insert(d, i).squeeze().equals(b, tol=0)` holds.
The original claim's "every box b" fails exactly when `b` itself has a
degenerate axis, which squeeze also removes. -/
theorem insert_squeeze_roundtrip (b d : IntervalProd) (i : ℤ)
    (hb : b.valid) (hnodeg : ∀ q ∈ b.begin.zip b.endp, q.1 ≠ q.2)
    (hd : d.valid) (hdeg : ∀ q ∈ d.begin.zip d.endp, q.1 = q.2)
    (h0 : 0 ≤ i) (h1 : i ≤ (b.dim : ℤ)) :
    ∃ c s, b.insert d i = .ok c ∧ c.squeeze = .ok s ∧
      s.equals (.box b) 0 = .ok true := by
  have hlenTake : (b.begin.take i.toNat).length = (b.endp.take i.toNat).length := by
    simp [hb.1]
  have hlenTD : (b.begin.take i.toNat ++ d.begin).length =
      (b.endp.take i.toNat ++ d.endp).length := by
    simp [hb.1, hd.1]
  have hzip : (b.begin.take i.toNat ++ d.begin ++ b.begin.drop i.toNat).zip
      (b.endp.take i.toNat ++ d.endp ++ b.endp.drop i.toNat) =
      ((b.begin.zip b.endp).take i.toNat ++ d.begin.zip d.endp) ++
        (b.begin.zip b.endp).drop i.toNat := by
    rw [List.zip_append hlenTD, List.zip_append hlenTake,
      zip_take_eq, zip_drop_eq]
  have hmk : IntervalProd.make
      (b.begin.take i.toNat ++ d.begin ++ b.begin.drop i.toNat)
      (b.endp.take i.toNat ++ d.endp ++ b.endp.drop i.toNat) =
      .ok ⟨b.begin.take i.toNat ++ d.begin ++ b.begin.drop i.toNat,
        b.endp.take i.toNat ++ d.endp ++ b.endp.drop i.toNat⟩ := by
    apply make_eq_ok
    · simp [hb.1, hd.1]
    · intro p hp
      rw [hzip] at hp
      rcases List.mem_append.mp hp with hp1 | hp3
      · rcases List.mem_append.mp hp1 with hp1 | hp2
        · exact hb.2 p (List.take_subset _ _ hp1)
        · exact hd.2 p hp2
      · exact hb.2 p (List.drop_subset _ _ hp3)
  have hins : b.insert d i = .ok ⟨b.begin.take i.toNat ++ d.begin ++
      b.begin.drop i.toNat, b.endp.take i.toNat ++ d.endp ++
      b.endp.drop i.toNat⟩ := by
    unfold IntervalProd.insert
    rw [if_pos (by simp [h0, h1])]
    exact hmk
  have hnd : IntervalProd.nondegPairs
      ⟨b.begin.take i.toNat ++ d.begin ++ b.begin.drop i.toNat,
        b.endp.take i.toNat ++ d.endp ++ b.endp.drop i.toNat⟩ =
      b.begin.zip b.endp := by
    unfold IntervalProd.nondegPairs
    rw [hzip, List.filter_append, List.filter_append]
    have hTake : ∀ q ∈ (b.begin.zip b.endp).take i.toNat,
        (!(F.beq q.1 q.2)) = true := by
      intro q hq
      have hq' := List.take_subset _ _ hq
      have hnn := F.ne_nan_left_of_le (hb.2 q hq')
      have : F.beq q.1 q.2 = false := by
        cases hbq : F.beq q.1 q.2
        · rfl
        · exact absurd ((F.beq_iff_eq hnn).mp hbq) (hnodeg q hq')
      simp [this]
    have hDrop : ∀ q ∈ (b.begin.zip b.endp).drop i.toNat,
        (!(F.beq q.1 q.2)) = true := by
      intro q hq
      have hq' := List.drop_subset _ _ hq
      have hnn := F.ne_nan_left_of_le (hb.2 q hq')
      have : F.beq q.1 q.2 = false := by
        cases hbq : F.beq q.1 q.2
        · rfl
        · exact absurd ((F.beq_iff_eq hnn).mp hbq) (hnodeg q hq')
      simp [this]
    have hD : ∀ q ∈ d.begin.zip d.endp, (!(F.beq q.1 q.2)) = false := by
      intro q hq
      have hnn := F.ne_nan_left_of_le (hd.2 q hq)
      rw [(F.beq_iff_eq hnn).mpr (hdeg q hq)]
      rfl
    rw [List.filter_eq_self.mpr hTake, List.filter_eq_self.mpr hDrop,
      List.filter_eq_nil.mpr (by intro q hq; simp [hD q hq]),
      List.append_nil, List.take_append_drop]
  have hsq : IntervalProd.squeeze
      ⟨b.begin.take i.toNat ++ d.begin ++ b.begin.drop i.toNat,
        b.endp.take i.toNat ++ d.endp ++ b.endp.drop i.toNat⟩ = .ok b := by
    unfold IntervalProd.squeeze
    rw [hnd, List.map_fst_zip _ _ (le_of_eq hb.1),
      List.map_snd_zip _ _ (le_of_eq hb.1.symm)]
    exact make_ok_self hb
  exact ⟨_, b, hins, hsq, equals_self hb⟩

/-- Witness for the amended C2, at `b = [0,1] x [2,3]`, `d = {7}`, splice
position 1. -/
theorem insert_squeeze_roundtrip_witness :
    (⟨[F.fin 0, F.fin 2], [F.fin 1, F.fin 3]⟩ : IntervalProd).valid ∧
    (∀ q ∈ (⟨[F.fin 0, F.fin 2], [F.fin 1, F.fin 3]⟩ : IntervalProd).begin.zip
      (⟨[F.fin 0, F.fin 2], [F.fin 1, F.fin 3]⟩ : IntervalProd).endp,
        q.1 ≠ q.2) ∧
    (⟨[F.fin 7], [F.fin 7]⟩ : IntervalProd).valid ∧
    (∀ q ∈ (⟨[F.fin 7], [F.fin 7]⟩ : IntervalProd).begin.zip
      (⟨[F.fin 7], [F.fin 7]⟩ : IntervalProd).endp, q.1 = q.2) ∧
    ∃ c s, (⟨[F.fin 0, F.fin 2], [F.fin 1, F.fin 3]⟩ : IntervalProd).insert
        ⟨[F.fin 7], [F.fin 7]⟩ 1 = .ok c ∧
      c.squeeze = .ok s ∧
      s.equals (.box ⟨[F.fin 0, F.fin 2], [F.fin 1, F.fin 3]⟩) 0 = .ok true :=
  ⟨by decide, by decide, by decide, by decide,
    insert_squeeze_roundtrip _ _ 1 (by decide) (by decide) (by decide)
      (by decide) (by decide) (by decide)⟩

/-- C5 (code bug): `equals` compares the bound arrays with `np.allclose`,
which broadcasts.  Against the claim (and the Set-equality contract the
docstring states), two valid boxes of different dimensions can compare
equal — the 1-d point box `{0}` equals the 2-d point box `{(0,0)}` — and
boxes whose dimensions are both larger than 1 make `np.allclose` raise
instead of returning false. -/
theorem equals_broadcasting_bug :
    (⟨[F.fin 0], [F.fin 0]⟩ : IntervalProd).valid ∧
    (⟨[F.fin 0, F.fin 0], [F.fin 0, F.fin 0]⟩ : IntervalProd).valid ∧
    (⟨[F.fin 0], [F.fin 0]⟩ : IntervalProd).dim ≠
      (⟨[F.fin 0, F.fin 0], [F.fin 0, F.fin 0]⟩ : IntervalProd).dim ∧
    (⟨[F.fin 0], [F.fin 0]⟩ : IntervalProd).equals
      (.box ⟨[F.fin 0, F.fin 0], [F.fin 0, F.fin 0]⟩) 0 = .ok true ∧
    (⟨[F.fin 0, F.fin 1], [F.fin 0, F.fin 1]⟩ : IntervalProd).equals
      (.box ⟨[F.fin 0, F.fin 1, F.fin 2],
        [F.fin 0, F.fin 1, F.fin 2]⟩) 0 = .error .broadcastMismatch := by
  refine ⟨by decide, by decide, by decide, ?_, ?_⟩ <;>
    norm_num [IntervalProd.equals, allclose, fclose]

/-! Lemmas for uniform sampling. -/

theorem any_isInf_iff (l : List F) :
    (l.any F.isInf = true) ↔ ∃ x ∈ l, F.isInf x = true := by
  simp [List.any_eq_true]

theorem unbounded_cond_iff (bx : IntervalProd) :
    ((bx.begin.any F.isInf || bx.endp.any F.isInf) = true) ↔
      ((∃ x ∈ bx.begin, F.isInf x = true) ∨
        (∃ x ∈ bx.endp, F.isInf x = true)) := by
  simp [List.any_eq_true]

theorem degenerate_cond_iff {bx : IntervalProd} (h : bx.valid) (nn : List ℤ) :
    (((bx.begin.zip bx.endp).zip nn).any
        (fun q => F.beq q.1.1 q.1.2 && decide (1 < q.2)) = true) ↔
      ∃ q ∈ (bx.begin.zip bx.endp).zip nn, q.1.1 = q.1.2 ∧ 1 < q.2 := by
  rw [List.any_eq_true]
  constructor
  · rintro ⟨q, hq, hcond⟩
    rw [Bool.and_eq_true] at hcond
    have hmem := (List.mem_zip hq).1
    have hnn := F.ne_nan_left_of_le (h.2 q.1 hmem)
    exact ⟨q, hq, (F.beq_iff_eq hnn).mp hcond.1, by simpa using hcond.2⟩
  · rintro ⟨q, hq, he, hlt⟩
    have hmem := (List.mem_zip hq).1
    have hnn := F.ne_nan_left_of_le (h.2 q.1 hmem)
    refine ⟨q, hq, ?_⟩
    rw [Bool.and_eq_true]
    exact ⟨(F.beq_iff_eq hnn).mpr he, by simpa using hlt⟩

theorem uniform_sampling_ok {bx : IntervalProd} {nn : List ℤ} (m : Bool)
    (h : bx.valid)
    (hinf : ¬ ((∃ x ∈ bx.begin, F.isInf x = true) ∨
      (∃ x ∈ bx.endp, F.isInf x = true)))
    (hlen : nn.length = bx.dim) (hpos : ∀ n ∈ nn, 0 < n)
    (hdeg : ∀ q ∈ (bx.begin.zip bx.endp).zip nn, q.1.1 = q.1.2 → q.2 ≤ 1) :
    bx.uniform_sampling nn m = .ok (nn, bx.midpoint, bx.stride nn m) := by
  have hposc : ¬ ((nn.any fun n => decide (n ≤ 0)) = true) := by
    intro hc
    rw [List.any_eq_true] at hc
    obtain ⟨n, hn, hle⟩ := hc
    have := hpos n hn
    simp at hle
    omega
  have hdegc : ¬ ((((bx.begin.zip bx.endp).zip nn).any
      (fun q => F.beq q.1.1 q.1.2 && decide (1 < q.2))) = true) := by
    intro hc
    obtain ⟨q, hq, he, hlt⟩ := (degenerate_cond_iff h nn).mp hc
    have := hdeg q hq he
    omega
  unfold IntervalProd.uniform_sampling
  rw [if_neg (fun hc => hinf ((unbounded_cond_iff bx).mp hc)),
    if_neg (fun hc => hc hlen), if_neg hposc, if_neg hdegc]

/-- C8: `uniform_sampling` fails with UnboundedDomain if any axis bound is
infinite; otherwise with ShapeMismatch if the node-count vector's length
differs from `dim`; otherwise with NonPositiveCount if any count is <= 0;
otherwise with DegenerateOversample if a degenerate axis requests more than
one node; and when all four checks pass it raises no validation error and
delegates to the grid constructor with the node counts, `center = midpoint`
and the computed per-axis stride. -/
theorem uniform_sampling_validation (bx : IntervalProd) (nn : List ℤ)
    (m : Bool) (h : bx.valid) :
    (bx.uniform_sampling nn m = .error .unboundedDomain ↔
      ((∃ x ∈ bx.begin, F.isInf x = true) ∨
        (∃ x ∈ bx.endp, F.isInf x = true))) ∧
    (¬ ((∃ x ∈ bx.begin, F.isInf x = true) ∨
        (∃ x ∈ bx.endp, F.isInf x = true)) →
      (bx.uniform_sampling nn m = .error .shapeMismatch ↔
        nn.length ≠ bx.dim)) ∧
    (¬ ((∃ x ∈ bx.begin, F.isInf x = true) ∨
        (∃ x ∈ bx.endp, F.isInf x = true)) → nn.length = bx.dim →
      (bx.uniform_sampling nn m = .error .nonPositiveCount ↔
        ∃ n ∈ nn, n ≤ 0)) ∧
    (¬ ((∃ x ∈ bx.begin, F.isInf x = true) ∨
        (∃ x ∈ bx.endp, F.isInf x = true)) → nn.length = bx.dim →
      (∀ n ∈ nn, 0 < n) →
      (bx.uniform_sampling nn m = .error .degenerateOversample ↔
        ∃ q ∈ (bx.begin.zip bx.endp).zip nn, q.1.1 = q.1.2 ∧ 1 < q.2)) ∧
    (¬ ((∃ x ∈ bx.begin, F.isInf x = true) ∨
        (∃ x ∈ bx.endp, F.isInf x = true)) → nn.length = bx.dim →
      (∀ n ∈ nn, 0 < n) →
      (∀ q ∈ (bx.begin.zip bx.endp).zip nn, q.1.1 = q.1.2 → q.2 ≤ 1) →
      bx.uniform_sampling nn m = .ok (nn, bx.midpoint, bx.stride nn m)) := by
  refine ⟨?_, ?_, ?_, ?_, fun h1 h2 h3 h4 => uniform_sampling_ok m h h1 h2 h3 h4⟩
  · unfold IntervalProd.uniform_sampling
    by_cases hinf : (bx.begin.any F.isInf || bx.endp.any F.isInf) = true
    · rw [if_pos hinf]
      simp [(unbounded_cond_iff bx).mp hinf]
    · rw [if_neg hinf]
      have hr : ¬ ((∃ x ∈ bx.begin, F.isInf x = true) ∨
          (∃ x ∈ bx.endp, F.isInf x = true)) :=
        fun hc => hinf ((unbounded_cond_iff bx).mpr hc)
      split <;> [skip; split <;> [skip; split]] <;> simp [hr]
  · intro hr
    have hinf : ¬ ((bx.begin.any F.isInf || bx.endp.any F.isInf) = true) :=
      fun hc => hr ((unbounded_cond_iff bx).mp hc)
    unfold IntervalProd.uniform_sampling
    rw [if_neg hinf]
    by_cases hl : nn.length ≠ bx.dim
    · rw [if_pos hl]
      simp [hl]
    · rw [if_neg hl]
      split <;> [skip; split] <;> simp [hl]
  · intro hr hlen
    have hinf : ¬ ((bx.begin.any F.isInf || bx.endp.any F.isInf) = true) :=
      fun hc => hr ((unbounded_cond_iff bx).mp hc)
    unfold IntervalProd.uniform_sampling
    rw [if_neg hinf, if_neg (fun hc => hc hlen)]
    by_cases hp : (nn.any fun n => decide (n ≤ 0)) = true
    · rw [if_pos hp]
      rw [List.any_eq_true] at hp
      simp only [decide_eq_true_eq] at hp
      simp [hp]
    · rw [if_neg hp]
      have hp' : ¬ ∃ n ∈ nn, n ≤ 0 := by
        intro ⟨n, hn, hle⟩
        exact hp (List.any_eq_true.mpr ⟨n, hn, by simpa using hle⟩)
      split <;> simp [hp']
  · intro hr hlen hpos
    have hinf : ¬ ((bx.begin.any F.isInf || bx.endp.any F.isInf) = true) :=
      fun hc => hr ((unbounded_cond_iff bx).mp hc)
    have hposc : ¬ ((nn.any fun n => decide (n ≤ 0)) = true) := by
      intro hc
      rw [List.any_eq_true] at hc
      obtain ⟨n, hn, hle⟩ := hc
      have := hpos n hn
      simp at hle
      omega
    unfold IntervalProd.uniform_sampling
    rw [if_neg hinf, if_neg (fun hc => hc hlen), if_neg hposc]
    by_cases hd : (((bx.begin.zip bx.endp).zip nn).any
        (fun q => F.beq q.1.1 q.1.2 && decide (1 < q.2))) = true
    · rw [if_pos hd]
      simp [(degenerate_cond_iff h nn).mp hd]
    · rw [if_neg hd]
      have hd' : ¬ ∃ q ∈ (bx.begin.zip bx.endp).zip nn,
          q.1.1 = q.1.2 ∧ 1 < q.2 :=
        fun hc => hd ((degenerate_cond_iff h nn).mpr hc)
      simp [hd']

/-- Witness for C8, at the box `[-1, 0] x [2, 3]` with node counts `[2, 5]`:
all four checks pass and the grid payload is delegated. -/
theorem uniform_sampling_validation_witness :
    (⟨[F.fin (-1), F.fin 2], [F.fin 0, F.fin 3]⟩ : IntervalProd).valid ∧
    (⟨[F.fin (-1), F.fin 2], [F.fin 0, F.fin 3]⟩ : IntervalProd).uniform_sampling
      [2, 5] false =
      .ok ([2, 5],
        (⟨[F.fin (-1), F.fin 2], [F.fin 0, F.fin 3]⟩ : IntervalProd).midpoint,
        (⟨[F.fin (-1), F.fin 2],
          [F.fin 0, F.fin 3]⟩ : IntervalProd).stride [2, 5] false) :=
  ⟨by decide,
    (uniform_sampling_validation _ [2, 5] false (by decide)).2.2.2.2
      (by decide) (by decide) (by decide) (by decide)⟩

theorem stride_get? :
    ∀ (i : ℕ) (bl el : List F) (nl : List ℤ) (m : Bool) (b0 e0 : F) (n0 : ℤ),
      bl.get? i = some b0 → el.get? i = some e0 → nl.get? i = some n0 →
      (IntervalProd.stride ⟨bl, el⟩ nl m).get? i =
        some (F.div (F.sub e0 b0)
          (F.fin (if m then (n0 : ℚ) else (n0 : ℚ) - 1))) := by
  intro i
  induction i with
  | zero =>
    intro bl el nl m b0 e0 n0 hb he hn
    cases bl with
    | nil => simp at hb
    | cons b bs =>
      cases el with
      | nil => simp at he
      | cons e es =>
        cases nl with
        | nil => simp at hn
        | cons n ns =>
          simp only [List.get?] at hb he hn
          cases hb; cases he; cases hn
          simp [IntervalProd.stride]
  | succ i ih =>
    intro bl el nl m b0 e0 n0 hb he hn
    cases bl with
    | nil => simp at hb
    | cons b bs =>
      cases el with
      | nil => simp at he
      | cons e es =>
        cases nl with
        | nil => simp at hn
        | cons n ns =>
          simp only [List.get?] at hb he hn
          have := ih bs es ns m b0 e0 n0 hb he hn
          simpa [IntervalProd.stride] using this

theorem zip_mem_of_get? {α β : Type} :
    ∀ (i : ℕ) (l1 : List α) (l2 : List β) (a : α) (b : β),
      l1.get? i = some a → l2.get? i = some b → (a, b) ∈ l1.zip l2 := by
  intro i
  induction i with
  | zero =>
    intro l1 l2 a b h1 h2
    cases l1 with
    | nil => simp at h1
    | cons x xs =>
      cases l2 with
      | nil => simp at h2
      | cons y ys =>
        simp only [List.get?] at h1 h2
        cases h1; cases h2
        simp
  | succ i ih =>
    intro l1 l2 a b h1 h2
    cases l1 with
    | nil => simp at h1
    | cons x xs =>
      cases l2 with
      | nil => simp at h2
      | cons y ys =>
        simp only [List.get?] at h1 h2
        rw [List.zip_cons_cons]
        exact List.mem_cons_of_mem _ (ih xs ys a b h1 h2)

/-- C10: with `as_midp = False` and node count 1 on some axis — a value the
validation accepts, and the only one it permits on a degenerate axis —
`uniform_sampling` raises no error, computes `stride[i] = size[i] /
(num_nodes[i] - 1)` with a zero denominator (NaN = 0/0 on a degenerate
axis, +infinity on a non-degenerate one) and hands that stride to the grid
constructor. -/
theorem uniform_sampling_unit_node_stride (bx : IntervalProd) (nn : List ℤ)
    (h : bx.valid)
    (hinf : ¬ ((∃ x ∈ bx.begin, F.isInf x = true) ∨
      (∃ x ∈ bx.endp, F.isInf x = true)))
    (hlen : nn.length = bx.dim) (hpos : ∀ n ∈ nn, 0 < n)
    (hdeg : ∀ q ∈ (bx.begin.zip bx.endp).zip nn, q.1.1 = q.1.2 → q.2 ≤ 1) :
    bx.uniform_sampling nn false = .ok (nn, bx.midpoint, bx.stride nn false) ∧
    ∀ (i : ℕ) (b0 e0 : F), bx.begin.get? i = some b0 →
      bx.endp.get? i = some e0 → nn.get? i = some 1 →
      (bx.stride nn false).get? i =
        some (if b0 = e0 then F.nan else F.pinf) := by
  refine ⟨uniform_sampling_ok false h hinf hlen hpos hdeg, ?_⟩
  intro i b0 e0 hb he hn
  have hst := stride_get? i bx.begin bx.endp nn false b0 e0 1 hb he hn
  have hbx : (⟨bx.begin, bx.endp⟩ : IntervalProd) = bx := rfl
  rw [hbx] at hst
  rw [hst]
  congr 1
  have hz : ((1 : ℤ) : ℚ) - 1 = 0 := by norm_num
  rw [if_neg (by simp), hz]
  have hb0 : b0 ∈ bx.begin := List.get?_mem hb
  have he0 : e0 ∈ bx.endp := List.get?_mem he
  have hbfin : F.isInf b0 = false := by
    cases hi : F.isInf b0
    · rfl
    · exact absurd (Or.inl ⟨b0, hb0, hi⟩) hinf
  have hefin : F.isInf e0 = false := by
    cases hi : F.isInf e0
    · rfl
    · exact absurd (Or.inr ⟨e0, he0, hi⟩) hinf
  have hle : F.le b0 e0 = true := h.2 (b0, e0) (zip_mem_of_get? i _ _ _ _ hb he)
  cases b0 with
  | nan => simp [F.le] at hle
  | ninf => simp [F.isInf] at hbfin
  | pinf => simp [F.isInf] at hbfin
  | fin a =>
    cases e0 with
    | nan => simp [F.le] at hle
    | ninf => simp [F.le] at hle
    | pinf => simp [F.isInf] at hefin
    | fin b =>
      have hle' : a ≤ b := by simpa [F.le] using hle
      have hsub : F.sub (F.fin b) (F.fin a) = F.fin (b - a) := by
        simp [F.sub, F.neg, F.add]
        ring
      rw [hsub]
      by_cases heq : a = b
      · subst heq
        rw [if_pos rfl]
        simp [F.div]
      · rw [if_neg (by simp [heq])]
        have hlt : a < b := lt_of_le_of_ne hle' heq
        simp only [F.div]
        rw [if_pos trivial, if_neg (fun hc => heq (sub_eq_zero.mp hc).symm),
          if_pos (sub_pos.mpr hlt)]

/-- Witness for C10, at the box `{0} x [1, 2]` with node counts `[1, 1]`:
the degenerate axis gets stride NaN, the non-degenerate one +infinity. -/
theorem uniform_sampling_unit_node_stride_witness :
    (⟨[F.fin 0, F.fin 1], [F.fin 0, F.fin 2]⟩ : IntervalProd).valid ∧
    (⟨[F.fin 0, F.fin 1],
      [F.fin 0, F.fin 2]⟩ : IntervalProd).uniform_sampling [1, 1] false =
      .ok ([1, 1],
        (⟨[F.fin 0, F.fin 1], [F.fin 0, F.fin 2]⟩ : IntervalProd).midpoint,
        (⟨[F.fin 0, F.fin 1],
          [F.fin 0, F.fin 2]⟩ : IntervalProd).stride [1, 1] false) ∧
    ((⟨[F.fin 0, F.fin 1],
      [F.fin 0, F.fin 2]⟩ : IntervalProd).stride [1, 1] false).get? 0 =
      some (if F.fin 0 = F.fin 0 then F.nan else F.pinf) ∧
    ((⟨[F.fin 0, F.fin 1],
      [F.fin 0, F.fin 2]⟩ : IntervalProd).stride [1, 1] false).get? 1 =
      some (if F.fin 1 = F.fin 2 then F.nan else F.pinf) :=
  ⟨by decide,
    (uniform_sampling_unit_node_stride _ [1, 1] (by decide) (by decide)
      (by decide) (by decide) (by decide)).1,
    (uniform_sampling_unit_node_stride _ [1, 1] (by decide) (by decide)
      (by decide) (by decide) (by decide)).2 0 (F.fin 0) (F.fin 0)
        rfl rfl rfl,
    (uniform_sampling_unit_node_stride _ [1, 1] (by decide) (by decide)
      (by decide) (by decide) (by decide)).2 1 (F.fin 1) (F.fin 2)
        rfl rfl rfl⟩

/-! Lemmas for collapse. -/

theorem set_getD_ne :
    ∀ (l : List F) (k j : ℕ) (a d : F), k ≠ j →
      (l.set k a).getD j d = l.getD j d := by
  intro l
  induction l with
  | nil => intro k j a d _; rfl
  | cons x xs ih =>
    intro k j a d hkj
    cases k with
    | zero =>
      cases j with
      | zero => exact absurd rfl hkj
      | succ j => simp [List.set]
    | succ k =>
      cases j with
      | zero => simp [List.set]
      | succ j =>
        rw [show ((x :: xs).set (k + 1) a) = x :: xs.set k a from rfl,
          List.getD_cons_succ, List.getD_cons_succ]
        exact ih k j a d (by omega)

theorem set_getD_eq :
    ∀ (l : List F) (j : ℕ) (a d : F), j < l.length →
      (l.set j a).getD j d = a := by
  intro l
  induction l with
  | nil => intro j a d h; simp at h
  | cons x xs ih =>
    intro j a d h
    cases j with
    | zero => simp [List.set]
    | succ j =>
      rw [show ((x :: xs).set (j + 1) a) = x :: xs.set j a from rfl,
        List.getD_cons_succ]
      exact ih j a d (by simpa using h)

theorem assign_length :
    ∀ (ivs : List (ℤ × F)) (l : List F), (assign l ivs).length = l.length := by
  intro ivs
  induction ivs with
  | nil => intro l; rfl
  | cons p ivs ih =>
    intro l
    show (assign (l.set p.1.toNat p.2) ivs).length = l.length
    rw [ih, List.length_set]

theorem assign_getD_not_mem :
    ∀ (ivs : List (ℤ × F)) (l : List F) (j : ℕ) (d : F),
      (∀ q ∈ ivs, q.1.toNat ≠ j) → (assign l ivs).getD j d = l.getD j d := by
  intro ivs
  induction ivs with
  | nil => intro l j d _; rfl
  | cons p ivs ih =>
    intro l j d hne
    show (assign (l.set p.1.toNat p.2) ivs).getD j d = l.getD j d
    rw [ih _ _ _ (fun q hq => hne q (by simp [hq])),
      set_getD_ne _ _ _ _ _ (hne p (by simp))]

theorem assign_getD_mem :
    ∀ (ivs : List (ℤ × F)) (l : List F) (i : ℤ) (v : F) (d : F),
      (ivs.map (fun q => q.1.toNat)).Nodup → (i, v) ∈ ivs →
      i.toNat < l.length → (assign l ivs).getD i.toNat d = v := by
  intro ivs
  induction ivs with
  | nil => intro l i v d _ hm; simp at hm
  | cons p ivs ih =>
    intro l i v d hnd hm hlen
    rw [List.map_cons, List.nodup_cons] at hnd
    rw [List.mem_cons] at hm
    show (assign (l.set p.1.toNat p.2) ivs).getD i.toNat d = v
    rcases hm with hm | hm
    · cases hm
      rw [assign_getD_not_mem ivs _ _ _ ?_, set_getD_eq _ _ _ _ hlen]
      intro q hq hcontra
      exact hnd.1 (hcontra ▸ List.mem_map_of_mem (fun q => q.1.toNat) hq)
    · exact ih (l.set p.1.toNat p.2) i v d hnd.2 hm (by rw [List.length_set]; exact hlen)

theorem getD_get? :
    ∀ (l : List F) (j : ℕ) (d : F), j < l.length →
      l.get? j = some (l.getD j d) := by
  intro l
  induction l with
  | nil => intro j d h; simp at h
  | cons x xs ih =>
    intro j d h
    cases j with
    | zero => rfl
    | succ j => simpa using ih j d (by simpa using h)

theorem valid_getD_le {bx : IntervalProd} (h : bx.valid) :
    ∀ j : ℕ, j < bx.dim →
      F.le (bx.begin.getD j F.nan) (bx.endp.getD j F.nan) = true := by
  intro j hj
  have hj2 : j < bx.endp.length := by
    have := h.1
    unfold IntervalProd.dim at hj
    omega
  exact h.2 _ (zip_mem_of_get? j _ _ _ _ (getD_get? bx.begin j F.nan hj)
    (getD_get? bx.endp j F.nan hj2))

theorem valid_getD_begin_ne_nan {bx : IntervalProd} (h : bx.valid)
    {j : ℕ} (hj : j < bx.dim) : bx.begin.getD j F.nan ≠ F.nan :=
  F.ne_nan_left_of_le (valid_getD_le h j hj)

theorem valid_getD_endp_ne_nan {bx : IntervalProd} (h : bx.valid)
    {j : ℕ} (hj : j < bx.dim) : bx.endp.getD j F.nan ≠ F.nan :=
  F.ne_nan_right_of_le (valid_getD_le h j hj)

theorem all_zip_le_of_getD :
    ∀ (l1 l2 : List F), l1.length = l2.length →
      (∀ j : ℕ, j < l1.length →
        F.le (l1.getD j F.nan) (l2.getD j F.nan) = true) →
      ((l1.zip l2).all fun p => F.le p.1 p.2) = true := by
  intro l1
  induction l1 with
  | nil => intro l2 _ _; rfl
  | cons x xs ih =>
    intro l2 hlen hall
    cases l2 with
    | nil => simp at hlen
    | cons y ys =>
      rw [List.zip_cons_cons, List.all_cons, Bool.and_eq_true]
      exact ⟨hall 0 (by simp),
        ih ys (by simpa using hlen)
          (fun j hj => hall (j + 1) (by simpa using hj))⟩

/-- C7 counterexample: on the interval `[0, 1]`, `collapse([0], [NaN])`
does not fail with ValueOutOfBounds although NaN lies outside `[0, 1]` —
both float bounds checks compare false on NaN, and the call fails later with
the validating constructor's OrderingViolation. -/
theorem collapse_nan_counterexample :
    (⟨[F.fin 0], [F.fin 1]⟩ : IntervalProd).valid ∧
    ¬ (F.le (F.fin 0) F.nan = true ∧ F.le F.nan (F.fin 1) = true) ∧
    (⟨[F.fin 0], [F.fin 1]⟩ : IntervalProd).collapse [0] [F.nan] =
      .error .orderingViolation ∧
    ¬ ((⟨[F.fin 0], [F.fin 1]⟩ : IntervalProd).collapse [0] [F.nan] =
      .error .valueOutOfBounds) := by
  exact ⟨by decide, by decide, by decide, by decide⟩

/-- C7 (amended, restricted to non-NaN values): `collapse` fails with
LengthMismatch iff the argument counts differ; given equal counts, with
IndexOutOfRange iff some index is outside `[0, dim)`; given the earlier
checks pass, with ValueOutOfBounds iff some value lies outside
`[begin[index], end[index]]`; and when every check passes it returns a new
box with `begin[index] = end[index] = value` at each listed axis (indices
listed once) and every other axis unchanged — the receiver itself is never
modified, every operation being a pure function. -/
theorem collapse_validation_and_result (bx : IntervalProd) (indcs : List ℤ)
    (values : List F) (h : bx.valid) (hnan : ∀ v ∈ values, v ≠ F.nan) :
    (bx.collapse indcs values = .error .lengthMismatch ↔
      indcs.length ≠ values.length) ∧
    (indcs.length = values.length →
      (bx.collapse indcs values = .error .indexOutOfRange ↔
        ∃ i ∈ indcs, i < 0 ∨ (bx.dim : ℤ) ≤ i)) ∧
    (indcs.length = values.length →
      (∀ i ∈ indcs, 0 ≤ i ∧ i < (bx.dim : ℤ)) →
      (bx.collapse indcs values = .error .valueOutOfBounds ↔
        ∃ q ∈ indcs.zip values,
          ¬ (F.le (bx.begin.getD q.1.toNat F.nan) q.2 = true ∧
             F.le q.2 (bx.endp.getD q.1.toNat F.nan) = true))) ∧
    (indcs.length = values.length →
      (∀ i ∈ indcs, 0 ≤ i ∧ i < (bx.dim : ℤ)) →
      (∀ q ∈ indcs.zip values,
        F.le (bx.begin.getD q.1.toNat F.nan) q.2 = true ∧
        F.le q.2 (bx.endp.getD q.1.toNat F.nan) = true) →
      indcs.Nodup →
      ∃ bx', bx.collapse indcs values = .ok bx' ∧ bx'.valid ∧
        (∀ q ∈ indcs.zip values,
          bx'.begin.getD q.1.toNat F.nan = q.2 ∧
          bx'.endp.getD q.1.toNat F.nan = q.2) ∧
        (∀ j : ℕ, j < bx.dim → (∀ i ∈ indcs, i.toNat ≠ j) →
          bx'.begin.getD j F.nan = bx.begin.getD j F.nan ∧
          bx'.endp.getD j F.nan = bx.endp.getD j F.nan)) := by
  refine ⟨?_, ?_, ?_, ?_⟩
  · unfold IntervalProd.collapse
    by_cases hl : indcs.length ≠ values.length
    · rw [if_pos hl]
      simp [hl]
    · rw [if_neg hl]
      split
      · simp [hl]
      · split
        · simp [hl]
        · split
          · simp [hl]
          · unfold IntervalProd.make
            split
            · simp [hl]
            · split <;> simp [hl]
  · intro hlen
    unfold IntervalProd.collapse
    rw [if_neg (fun hc => hc hlen)]
    by_cases hidx : (indcs.any fun i =>
        decide (i < 0) || decide ((bx.dim : ℤ) ≤ i)) = true
    · rw [if_pos hidx]
      rw [List.any_eq_true] at hidx
      simp only [Bool.or_eq_true, decide_eq_true_eq] at hidx
      simp [hidx]
    · rw [if_neg hidx]
      have hidxn : ¬ ∃ i ∈ indcs, i < 0 ∨ (bx.dim : ℤ) ≤ i := by
        intro hc
        apply hidx
        rw [List.any_eq_true]
        obtain ⟨i, hi, hc⟩ := hc
        exact ⟨i, hi, by simpa using hc⟩
      split
      · simp [hidxn]
      · split
        · simp [hidxn]
        · unfold IntervalProd.make
          split
          · simp [hidxn]
          · split <;> simp [hidxn]
  · intro hlen hrange
    have hidxc : ¬ ((indcs.any fun i =>
        decide (i < 0) || decide ((bx.dim : ℤ) ≤ i)) = true) := by
      intro hc
      rw [List.any_eq_true] at hc
      obtain ⟨i, hi, hc⟩ := hc
      simp only [Bool.or_eq_true, decide_eq_true_eq] at hc
      have := hrange i hi
      omega
    unfold IntervalProd.collapse
    rw [if_neg (fun hc => hc hlen), if_neg hidxc]
    have hfacts : ∀ q ∈ indcs.zip values,
        bx.begin.getD q.1.toNat F.nan ≠ F.nan ∧
        bx.endp.getD q.1.toNat F.nan ≠ F.nan ∧ q.2 ≠ F.nan := by
      intro q hq
      have hq1 := (List.mem_zip hq).1
      have hq2 := (List.mem_zip hq).2
      have hr := hrange q.1 hq1
      have hdim : q.1.toNat < bx.dim := by omega
      exact ⟨valid_getD_begin_ne_nan h hdim, valid_getD_endp_ne_nan h hdim,
        hnan q.2 hq2⟩
    by_cases hg3 : ((indcs.zip values).any fun p =>
        F.lt p.2 (bx.begin.getD p.1.toNat F.nan)) = true
    · rw [if_pos hg3]
      rw [List.any_eq_true] at hg3
      obtain ⟨q, hq, hlt⟩ := hg3
      obtain ⟨hbn, hen, hvn⟩ := hfacts q hq
      have hf : F.le (bx.begin.getD q.1.toNat F.nan) q.2 = false :=
        (F.not_le_iff_lt hbn hvn).mpr hlt
      constructor
      · intro _
        exact ⟨q, hq, fun hc => by rw [hc.1] at hf; exact Bool.noConfusion hf⟩
      · intro _
        rfl
    · rw [if_neg hg3]
      by_cases hg4 : ((indcs.zip values).any fun p =>
          F.lt (bx.endp.getD p.1.toNat F.nan) p.2) = true
      · rw [if_pos hg4]
        rw [List.any_eq_true] at hg4
        obtain ⟨q, hq, hlt⟩ := hg4
        obtain ⟨hbn, hen, hvn⟩ := hfacts q hq
        have hf : F.le q.2 (bx.endp.getD q.1.toNat F.nan) = false :=
          (F.not_le_iff_lt hvn hen).mpr hlt
        constructor
        · intro _
          exact ⟨q, hq, fun hc => by rw [hc.2] at hf; exact Bool.noConfusion hf⟩
        · intro _
          rfl
      · rw [if_neg hg4]
        have hnone : ¬ ∃ q ∈ indcs.zip values,
            ¬ (F.le (bx.begin.getD q.1.toNat F.nan) q.2 = true ∧
               F.le q.2 (bx.endp.getD q.1.toNat F.nan) = true) := by
          rintro ⟨q, hq, hc⟩
          obtain ⟨hbn, hen, hvn⟩ := hfacts q hq
          apply hc
          constructor
          · cases hle : F.le (bx.begin.getD q.1.toNat F.nan) q.2
            · exact absurd (List.any_eq_true.mpr
                ⟨q, hq, (F.not_le_iff_lt hbn hvn).mp hle⟩) hg3
            · rfl
          · cases hle : F.le q.2 (bx.endp.getD q.1.toNat F.nan)
            · exact absurd (List.any_eq_true.mpr
                ⟨q, hq, (F.not_le_iff_lt hvn hen).mp hle⟩) hg4
            · rfl
        unfold IntervalProd.make
        split
        · exact iff_of_false (by simp) hnone
        · split
          · exact iff_of_false (by simp) hnone
          · exact iff_of_false (by simp) hnone
  · intro hlen hrange hle hnodup
    have hidxc : ¬ ((indcs.any fun i =>
        decide (i < 0) || decide ((bx.dim : ℤ) ≤ i)) = true) := by
      intro hc
      rw [List.any_eq_true] at hc
      obtain ⟨i, hi, hc⟩ := hc
      simp only [Bool.or_eq_true, decide_eq_true_eq] at hc
      have := hrange i hi
      omega
    have hg3 : ¬ (((indcs.zip values).any fun p =>
        F.lt p.2 (bx.begin.getD p.1.toNat F.nan)) = true) := by
      intro hc
      rw [List.any_eq_true] at hc
      obtain ⟨q, hq, hlt⟩ := hc
      rw [F.not_lt_of_le (hle q hq).1] at hlt
      exact Bool.noConfusion hlt
    have hg4 : ¬ (((indcs.zip values).any fun p =>
        F.lt (bx.endp.getD p.1.toNat F.nan) p.2) = true) := by
      intro hc
      rw [List.any_eq_true] at hc
      obtain ⟨q, hq, hlt⟩ := hc
      rw [F.not_lt_of_le (hle q hq).2] at hlt
      exact Bool.noConfusion hlt
    have hkeys : ((indcs.zip values).map (fun q => q.1.toNat)).Nodup := by
      have hmapfst : (indcs.zip values).map Prod.fst = indcs :=
        List.map_fst_zip _ _ (le_of_eq hlen)
      have hnodupN : (indcs.map Int.toNat).Nodup := by
        apply List.Nodup.map_on ?_ hnodup
        intro x hx y hy hxy
        have hrx := hrange x hx
        have hry := hrange y hy
        omega
      have heq : ((indcs.zip values).map Prod.fst).map Int.toNat =
          (indcs.zip values).map (fun q => q.1.toNat) := by
        rw [List.map_map]
        rfl
      rw [← heq, hmapfst]
      exact hnodupN
    have hlenB : (assign bx.begin (indcs.zip values)).length =
        bx.begin.length := assign_length _ _
    have hlenE : (assign bx.endp (indcs.zip values)).length =
        bx.endp.length := assign_length _ _
    have hdimq : ∀ q ∈ indcs.zip values,
        q.1.toNat < bx.begin.length ∧ q.1.toNat < bx.endp.length := by
      intro q hq
      have hr := hrange q.1 (List.mem_zip hq).1
      have h1 := h.1
      unfold IntervalProd.dim at hr
      omega
    have hle_idx : ∀ j : ℕ, j < (assign bx.begin (indcs.zip values)).length →
        F.le ((assign bx.begin (indcs.zip values)).getD j F.nan)
          ((assign bx.endp (indcs.zip values)).getD j F.nan) = true := by
      intro j hj
      rw [hlenB] at hj
      by_cases hjmem : ∃ q ∈ indcs.zip values, q.1.toNat = j
      · obtain ⟨q, hq, hqj⟩ := hjmem
        rw [← hqj,
          assign_getD_mem _ _ _ _ _ hkeys hq (hdimq q hq).1,
          assign_getD_mem _ _ _ _ _ hkeys hq (hdimq q hq).2]
        exact F.le_refl_of_ne_nan (hnan q.2 (List.mem_zip hq).2)
      · have hnm : ∀ q ∈ indcs.zip values, q.1.toNat ≠ j :=
          fun q hq hc => hjmem ⟨q, hq, hc⟩
        rw [assign_getD_not_mem _ _ _ _ hnm, assign_getD_not_mem _ _ _ _ hnm]
        exact valid_getD_le h j hj
    refine ⟨⟨assign bx.begin (indcs.zip values),
      assign bx.endp (indcs.zip values)⟩, ?_, ?_, ?_, ?_⟩
    · unfold IntervalProd.collapse
      rw [if_neg (fun hc => hc hlen), if_neg hidxc, if_neg hg3, if_neg hg4]
      exact make_eq_ok (by rw [hlenB, hlenE]; exact h.1)
        (List.all_eq_true.mp (all_zip_le_of_getD _ _
          (by rw [hlenB, hlenE]; exact h.1) hle_idx))
    · exact ⟨by rw [hlenB, hlenE]; exact h.1,
        List.all_eq_true.mp (all_zip_le_of_getD _ _
          (by rw [hlenB, hlenE]; exact h.1) hle_idx)⟩
    · intro q hq
      exact ⟨assign_getD_mem _ _ _ _ _ hkeys hq (hdimq q hq).1,
        assign_getD_mem _ _ _ _ _ hkeys hq (hdimq q hq).2⟩
    · intro j hj hni
      have hnm : ∀ q ∈ indcs.zip values, q.1.toNat ≠ j :=
        fun q hq => hni q.1 (List.mem_zip hq).1
      exact ⟨assign_getD_not_mem _ _ _ _ hnm, assign_getD_not_mem _ _ _ _ hnm⟩

/-- Witness for the amended C7, at the box `[-1, 0] x [0, 1] x [2, 3]` with
`collapse([1, 2], [0, 3])` (the spec's worked example with an in-bounds
second value). -/
theorem collapse_validation_and_result_witness :
    (⟨[F.fin (-1), F.fin 0, F.fin 2],
      [F.fin 0, F.fin 1, F.fin 3]⟩ : IntervalProd).valid ∧
    (∀ v ∈ [F.fin 0, F.fin 3], v ≠ F.nan) ∧
    ∃ bx', (⟨[F.fin (-1), F.fin 0, F.fin 2],
        [F.fin 0, F.fin 1, F.fin 3]⟩ : IntervalProd).collapse [1, 2]
          [F.fin 0, F.fin 3] = .ok bx' ∧ bx'.valid ∧
      (∀ q ∈ ([1, 2] : List ℤ).zip [F.fin 0, F.fin 3],
        bx'.begin.getD q.1.toNat F.nan = q.2 ∧
        bx'.endp.getD q.1.toNat F.nan = q.2) ∧
      (∀ j : ℕ, j < (⟨[F.fin (-1), F.fin 0, F.fin 2],
          [F.fin 0, F.fin 1, F.fin 3]⟩ : IntervalProd).dim →
        (∀ i ∈ ([1, 2] : List ℤ), i.toNat ≠ j) →
        bx'.begin.getD j F.nan =
          (⟨[F.fin (-1), F.fin 0, F.fin 2],
            [F.fin 0, F.fin 1, F.fin 3]⟩ : IntervalProd).begin.getD j F.nan ∧
        bx'.endp.getD j F.nan =
          (⟨[F.fin (-1), F.fin 0, F.fin 2],
            [F.fin 0, F.fin 1, F.fin 3]⟩ : IntervalProd).endp.getD j F.nan) :=
  ⟨by decide, by decide,
    (collapse_validation_and_result _ [1, 2] [F.fin 0, F.fin 3]
      (by decide) (by decide)).2.2.2 (by decide) (by decide) (by decide)
        (by decide)⟩
